import Mathlib

/-!
Verification of the file-hashing pipeline in `FileHashing/listdir.py`.

The Python module is shallowly embedded below.  Pure functions become Lean
functions; the stateful writer and orchestrator become explicit state
passing over a `RunState`; fallible operations return `Option`.  File
contents are byte lists (`List Nat`); the digest primitive
(`hashlib.new('blake2b')`) is a library call whose only property used by
the program is that feeding chunks with `update` is equivalent to feeding
the concatenation of the chunks, so the finalization step is modelled by
an arbitrary function `digestHex : List Nat → String` applied to the
absorbed byte sequence.  The filesystem walk `Path(root_dir).rglob('*')`
is modelled by a stream of walk events (file entries, directory entries,
and raised errors), together with a generator of such streams from a
concrete directory-tree value.
-/

namespace FileHashing

/-- Module-level constant `BATCH_SIZE = 20` of listdir.py.  The functions
below take the batch size as a parameter so that runs with other batch
sizes (for example 1) can be stated; this constant is the script's value. -/
def BATCH_SIZE : Nat := 20

/-- Module-level constant `EXCLUDED_DIRS` of listdir.py. -/
def EXCLUDED_DIRS : List String := ["$RECYCLE.BIN", "System Volume Information"]

/-- Module-level constant `CHUNK_SIZE = 8388608` (8 MB) of listdir.py. -/
def CHUNK_SIZE : Nat := 8388608

/-- Module-level constant `HASH_ALGORITHM` of listdir.py. -/
def HASH_ALGORITHM : String := "blake2b"

/-!  ## Chunked reading

`compute_file_hash` reads a file with `while chunk := f.read(CHUNK_SIZE)`.
`f.read(n)` returns at most `n` bytes and the empty (falsy) bytes object at
end of file, ending the loop; `f.read(0)` is empty at once.  `chunksAux`
is the same loop written with explicit fuel so that it is structurally
recursive (the fuel is the content length, which bounds the number of
nonempty reads since each read consumes at least one byte when `n > 0`). -/

/-- Fuel-indexed splitting of a byte list into the successive results of
`f.read(n)`. -/
def chunksAux {α : Type} (n : Nat) : Nat → List α → List (List α)
  | _, [] => []
  | 0, _ :: _ => []
  | fuel + 1, x :: xs =>
      if n = 0 then []
      else (x :: xs).take n :: chunksAux n fuel ((x :: xs).drop n)

/-- The list of chunks returned by repeatedly calling `f.read(n)` on a file
whose full contents are `l`. -/
def chunksOf {α : Type} (n : Nat) (l : List α) : List (List α) :=
  chunksAux n l.length l

/-- Model of `compute_file_hash(file_path)`.  The file's bytes are `some c`
when every read succeeds and `none` when opening or reading raises, in which
case the function logs a warning and returns `None`.  The `hashlib` object
absorbs each chunk with `update`; by the documented semantics of `update`,
the absorbed sequence is the concatenation of the chunks, and `hexdigest`
is a pure function `digestHex` of that sequence. -/
def compute_file_hash (digestHex : List Nat → String) (contents : Option (List Nat)) :
    Option String :=
  match contents with
  | none => none
  | some c =>
      some (digestHex ((chunksOf CHUNK_SIZE c).foldl (fun acc chunk => acc ++ chunk) []))

/-! ## Output records and their JSON rendering

`process_batch` builds dictionaries of the shape
`result = ⦃'file_path': str(file), 'hash': file_hash⦄` and the writer
serializes each with `json.dump(entry, f, indent=4)`.  The serialization of
this two-key dictionary, including the default `ensure_ascii` escaping of
Python's `json` module, is modelled byte-for-byte below. -/

/-- One successful hash record, `⦃'file_path': ..., 'hash': ...⦄`. -/
structure Record where
  file_path : String
  hash : String
deriving DecidableEq, Repr

/-- Lowercase hexadecimal digit, as used by `json`'s `\uXXXX` escapes. -/
def hexDigit (n : Nat) : Char :=
  if n < 10 then Char.ofNat ('0'.toNat + n) else Char.ofNat ('a'.toNat + (n - 10))

/-- Four lowercase hex digits of a number below 65536. -/
def hex4 (n : Nat) : String :=
  String.mk [hexDigit (n / 4096 % 16), hexDigit (n / 256 % 16),
    hexDigit (n / 16 % 16), hexDigit (n % 16)]

/-- Escaping of one character inside a JSON string literal, following
`json.dump` with its default `ensure_ascii=True`: backslash, double quote
and the five short escapes are escaped symbolically, every other character
outside the printable ASCII range 0x20..0x7e becomes `\uXXXX` (a surrogate
pair for code points above 0xffff), and printable ASCII is kept. -/
def escChar (c : Char) : String :=
  let n := c.toNat
  if c = '\\' then "\\\\"
  else if c = '"' then "\\\""
  else if c = '\n' then "\\n"
  else if c = '\t' then "\\t"
  else if c = '\r' then "\\r"
  else if n = 8 then "\\b"
  else if n = 12 then "\\f"
  else if n < 32 ∨ 126 < n then
    if n < 65536 then "\\u" ++ hex4 n
    else "\\u" ++ hex4 (55296 + (n - 65536) / 1024) ++ "\\u" ++ hex4 (56320 + (n - 65536) % 1024)
  else String.singleton c

/-- A JSON string literal for `s`, as produced by `json.dump`. -/
def jsonStr (s : String) : String :=
  "\"" ++ String.join (s.data.map escChar) ++ "\""

/-- The exact bytes `json.dump(entry, f, indent=4)` writes for one record. -/
def dumpEntry (r : Record) : String :=
  "\x7b\n    \"file_path\": " ++ jsonStr r.file_path ++
    ",\n    \"hash\": " ++ jsonStr r.hash ++ "\n\x7d"

/-- The document preamble written by the first non-empty batch:
an opening brace, the `"hashes"` key and the array opener. -/
def docPreamble : String := "\x7b\n  \"hashes\": [\n"

/-- The closing tokens written for a terminal batch (and by the fallback
close after the loop): array end and object end. -/
def docClose : String := "\n  ]\n\x7d\n"

/-- Rendering of a record list as written after the first record: each
record preceded by the `,\n` separator. -/
def entriesTail : List Record → String
  | [] => ""
  | r :: rest => ",\n" ++ dumpEntry r ++ entriesTail rest

/-- Rendering of a record list as the body of the `hashes` array: the first
record bare, each further record preceded by the separator. -/
def entriesBlock : List Record → String
  | [] => ""
  | r :: rest => dumpEntry r ++ entriesTail rest

/-! ## The scanner: `list_files_in_batches`

`Path(root_dir).rglob('*')` is an iterator producing every entry below the
root.  Its observable behaviour is modelled as a stream of `WalkEvent`
values: a regular-file entry (with the path components `file.parts` and the
file's readable contents), a directory entry (the code's `file.is_file()`
test rejects these), or an exception raised while iterating.  The
generator's `try` block wraps the whole loop, so the first raised error
ends the walk: a `PermissionError` is logged as a warning, every other
exception is logged as an error, and in both cases the generator returns
without yielding the pending partial batch.  The logged error is recorded
in the `err` field of the scanner's output.

Which errors can actually reach the loop: `pathlib` swallows the
`PermissionError` of scanning an unreadable directory inside its glob
selectors, skipping the subtree and continuing with its siblings, so the
scanner's `except PermissionError` arm is unreachable for traversal over
unreadable directories — `permErr` events model an error surfacing to the
loop from some other source, which is what that arm guards against.
Non-permission `OSError`s from the iterator do propagate (before 3.13)
and are modelled by `fatalErr` events. -/

/-- A path to a regular file: `file.parts` and the file's byte contents
(`none` when the file cannot be read, making its hash fail). -/
structure FileRef where
  parts : List String
  contents : Option (List Nat)
deriving DecidableEq, Repr

/-- `str(file)` for a `FileRef`: the path components joined by `/`. -/
def pathStr (f : FileRef) : String :=
  String.intercalate "/" f.parts

/-- One observable step of the `rglob` iterator. -/
inductive WalkEvent where
  | fileEv (f : FileRef)
  | dirEv (parts : List String)
  | permErr
  | fatalErr
deriving DecidableEq, Repr

/-- Which exception ended the walk (and was logged by the scanner). -/
inductive ScanErr where
  | permission
  | fatal
deriving DecidableEq, Repr

/-- Result of the batch generator: the batches it yielded, and the logged
error that ended the walk, if any. -/
structure ScanOutput where
  batches : List (List FileRef)
  err : Option ScanErr
deriving DecidableEq, Repr

/-- The test `any(part in EXCLUDED_DIRS for part in file.parts)`. -/
def excludedPath (parts : List String) : Bool :=
  parts.any (fun p => EXCLUDED_DIRS.contains p)

/-- The loop body of `list_files_in_batches`: walk the event stream,
collect non-excluded regular files into `file_batch`, yield each batch that
reaches the batch size, yield the pending partial batch when the iterator
is exhausted, and on a raised error record it and return without yielding
the pending batch. -/
def scanLoop (B : Nat) : List WalkEvent → List FileRef → List (List FileRef) → ScanOutput
  | [], fb, acc => ⟨acc ++ (if fb.isEmpty then [] else [fb]), none⟩
  | WalkEvent.fileEv f :: rest, fb, acc =>
      if excludedPath f.parts then scanLoop B rest fb acc
      else
        let fb' := fb ++ [f]
        if fb'.length = B then scanLoop B rest [] (acc ++ [fb'])
        else scanLoop B rest fb' acc
  | WalkEvent.dirEv _ :: rest, fb, acc => scanLoop B rest fb acc
  | WalkEvent.permErr :: _, _, acc => ⟨acc, some ScanErr.permission⟩
  | WalkEvent.fatalErr :: _, _, acc => ⟨acc, some ScanErr.fatal⟩

/-- Model of `list_files_in_batches(root_dir)` over the event stream of the
walk, parameterized by the batch size `B` (the script's `BATCH_SIZE`). -/
def list_files_in_batches (B : Nat) (events : List WalkEvent) : ScanOutput :=
  scanLoop B events [] []

/-- The regular files the loop accepts, in walk order: file events whose
parts contain no excluded directory name. -/
def acceptedFiles (events : List WalkEvent) : List FileRef :=
  events.filterMap (fun e =>
    match e with
    | WalkEvent.fileEv f => if excludedPath f.parts then none else some f
    | _ => none)

/-- An event stream with no raised error. -/
def errFree (events : List WalkEvent) : Bool :=
  events.all (fun e =>
    match e with
    | WalkEvent.permErr => false
    | WalkEvent.fatalErr => false
    | _ => true)

/-! ## Closed forms for the scanner -/

/-- Like `chunksAux`, but a trailing group shorter than `n` is dropped:
this is what the scanner yields when the walk ends in a raised error,
because the `yield file_batch` for the pending partial batch is skipped. -/
def fullChunksAux {α : Type} (n : Nat) : Nat → List α → List (List α)
  | _, [] => []
  | 0, _ :: _ => []
  | fuel + 1, x :: xs =>
      if n = 0 ∨ (x :: xs).length < n then []
      else (x :: xs).take n :: fullChunksAux n fuel ((x :: xs).drop n)

/-- The maximal list of full `n`-sized groups from the front of `l`. -/
def fullChunksOf {α : Type} (n : Nat) (l : List α) : List (List α) :=
  fullChunksAux n l.length l

/-! ## The shape of scanner output

Every batch the scanner yields has size exactly `B`, except possibly the
final one, which is nonempty and no longer than `B`.  This shape drives the
orchestrator analysis: a shorter-than-`B` batch can only be the last one. -/

/-- Batch lists of the shape the scanner can produce: every batch before
the last has length exactly `B`; the last is nonempty with length at most
`B`. -/
inductive ScanShape {α : Type} (B : Nat) : List (List α) → Prop
  | nil : ScanShape B []
  | single (b : List α) (hne : b ≠ []) (hle : b.length ≤ B) : ScanShape B [b]
  | cons (b : List α) (bs : List (List α)) (hfull : b.length = B) (hne : bs ≠ [])
      (h : ScanShape B bs) : ScanShape B (b :: bs)

/-! ## `process_batch` and the writer

`process_batch` dispatches `compute_file_hash` for every file of the batch
to a process pool and gathers the results in the batch's order (the list
`computed_hashes` is index-aligned with `batch`), then keeps the truthy
results: `if file_hash:` drops both `None` and an empty digest string. -/

/-- The body of `process_batch`'s result loop: keep the record when the
hash is truthy. -/
def pbStep (results : List Record) (p : FileRef × Option String) : List Record :=
  match p.2 with
  | some h => if h.isEmpty then results else results ++ [⟨pathStr p.1, h⟩]
  | none => results

/-- Model of `process_batch(batch)`: hash every file, then zip the batch
with its hashes and keep the records whose hash is truthy. -/
def process_batch (digestHex : List Nat → String) (batch : List FileRef) : List Record :=
  (batch.zip (batch.map (fun file => compute_file_hash digestHex file.contents))).foldl
    pbStep []

/-- The module-level writer flags `first_entry_written` and
`first_batch_written` of listdir.py, both `False` at process start. -/
structure WriterState where
  first_entry_written : Bool
  first_batch_written : Bool
deriving DecidableEq, Repr

/-- The entry loop of `write_to_json`: for each entry, write `,\n` if an
entry was already written, then the entry, then set the flag. -/
def writeEntries (st : WriterState) : List Record → WriterState × String
  | [] => (st, "")
  | r :: rest =>
      let sep := if st.first_entry_written then ",\n" else ""
      let next := writeEntries ⟨true, st.first_batch_written⟩ rest
      (next.1, sep ++ dumpEntry r ++ next.2)

/-- Model of `write_to_json(data, output_file, is_last_batch)`.  The input
state is the pair of module flags; the result is the new state and the
bytes appended to the output file.  With empty `data` the body is skipped
entirely.  Otherwise: write the preamble if no batch was written yet, write
the entries with separators, and write the closing tokens if this is the
last batch. -/
def write_to_json (st : WriterState) (data : List Record) (is_last_batch : Bool) :
    WriterState × String :=
  if data.isEmpty then (st, "")
  else
    let stOpen : WriterState :=
      if st.first_batch_written then st else { st with first_batch_written := true }
    let openOut : String := if st.first_batch_written then "" else docPreamble
    let ent := writeEntries stOpen data
    let closeOut : String := if is_last_batch then docClose else ""
    (ent.1, openOut ++ ent.2 ++ closeOut)

/-! ## The orchestrator `main` -/

/-- The run state threaded through `main`'s batch loop: the writer flags,
the bytes written to the output file so far, the local `is_last_batch`
variable, and an instrumentation counter of how many times the closing
tokens have been written. -/
structure RunState where
  st : WriterState
  sink : String
  is_last : Bool
  closes : Nat
deriving DecidableEq, Repr

/-- The state at the top of `main`: flags false (module initialization),
output file truncated by `open(output_file, 'w').close()`, `is_last_batch`
false, no close written. -/
def initState : RunState := ⟨⟨false, false⟩, "", false, 0⟩

/-- One iteration of `main`'s `async for batch` loop: hash the batch, set
`is_last_batch` from the batch length, and unless this is a dry run or the
results are empty, append the writer's output.  The `closes` counter goes
up exactly when `write_to_json` executes its closing write, which happens
when its data is nonempty and `is_last_batch` is true. -/
def mainStep (digestHex : List Nat → String) (B : Nat) (dry_run : Bool)
    (s : RunState) (batch : List FileRef) : RunState :=
  let results := process_batch digestHex batch
  let is_last : Bool := decide (batch.length < B)
  if !dry_run && !results.isEmpty then
    let w := write_to_json s.st results is_last
    ⟨w.1, s.sink ++ w.2, is_last, s.closes + (if is_last then 1 else 0)⟩
  else
    ⟨s.st, s.sink, is_last, s.closes⟩

/-- Model of `main(root_dir, output_file, dry_run)`: truncate the output,
loop over the scanner's batches, and append the fallback closing tokens
when the loop ends with `is_last_batch` false and this is not a dry run.
The result is the final run state; its `sink` is the output file's final
contents. -/
def mainRun (digestHex : List Nat → String) (B : Nat) (events : List WalkEvent)
    (dry_run : Bool) : RunState :=
  let s₁ := ((list_files_in_batches B events).batches).foldl
    (mainStep digestHex B dry_run) initState
  if !dry_run && !s₁.is_last then
    ⟨s₁.st, s₁.sink ++ docClose, s₁.is_last, s₁.closes + 1⟩
  else s₁

/-- The output file's contents after `main` returns.  `priorSink` is the
file's contents before the run; the unconditional
`open(output_file, 'w').close()` at the top of `main` discards it, so the
result never depends on it. -/
def main (digestHex : List Nat → String) (B : Nat) (events : List WalkEvent)
    (dry_run : Bool) (priorSink : String) : String :=
  (mainRun digestHex B events dry_run).sink

/-- The output file's contents at every point between writer invocations:
after the truncation, after each loop iteration, and after the fallback
close. -/
def sinkStates (digestHex : List Nat → String) (B : Nat) (events : List WalkEvent)
    (dry_run : Bool) : List String :=
  (((list_files_in_batches B events).batches).scanl
      (mainStep digestHex B dry_run) initState).map RunState.sink
    ++ [(mainRun digestHex B events dry_run).sink]

/-! ## Closed forms for the writer and the orchestrator -/

/-- The records produced by a list of batches, in order. -/
def batchRecs (digestHex : List Nat → String) (bs : List (List FileRef)) : List Record :=
  (bs.map (process_batch digestHex)).flatten

/-- The writer flags after a list of records has been written: both false
before anything is written, both true afterwards. -/
def wflags (rs : List Record) : WriterState :=
  if rs.isEmpty then ⟨false, false⟩ else ⟨true, true⟩

/-- The sink contents while the document is not yet closed: empty before
the first record, otherwise the preamble and the record block. -/
def midSink (rs : List Record) : String :=
  if rs.isEmpty then "" else docPreamble ++ entriesBlock rs

/-- Closed form for the final run state of a non-dry run, as a function of
the scanner's batch list.  With no batches at all, the loop never runs and
the fallback close fires on the truncated (empty) sink.  With a short last
batch, the document is closed in-band exactly when that batch produced
records; the fallback is skipped because `is_last_batch` ends true.  With a
full-size last batch, `is_last_batch` ends false and the fallback close
always fires. -/
def expectedState (digestHex : List Nat → String) (B : Nat)
    (bs : List (List FileRef)) : RunState :=
  match bs.getLast? with
  | none => ⟨⟨false, false⟩, docClose, false, 1⟩
  | some lb =>
      if decide (lb.length < B) then
        ⟨wflags (batchRecs digestHex bs),
          midSink (batchRecs digestHex bs) ++
            (if (process_batch digestHex lb).isEmpty then "" else docClose),
          true,
          if (process_batch digestHex lb).isEmpty then 0 else 1⟩
      else
        ⟨wflags (batchRecs digestHex bs),
          midSink (batchRecs digestHex bs) ++ docClose, false, 1⟩

/-! ## Per-file view of `process_batch` -/

/-- The record `process_batch` keeps for one file: the hash must succeed
and be truthy (Python's `if file_hash:` also drops an empty string). -/
def recordOf (digestHex : List Nat → String) (f : FileRef) : Option Record :=
  match compute_file_hash digestHex f.contents with
  | some h => if h.isEmpty then none else some ⟨pathStr f, h⟩
  | none => none

/-! ## A directory tree and its walk

`Path(root_dir).rglob('*')` iterates the tree level by level in
depth-first directory order: all children of a directory are yielded while
that directory is scanned, before the walk descends into its
subdirectories.  Scanning an unreadable directory raises
`PermissionError` at the point where its children would be listed, but
`pathlib` catches it inside the glob selectors: the unreadable subtree is
silently skipped and the iteration continues with the remaining
subdirectories.  The functions are fuel-indexed by the structural size of
the entry list to stay structurally recursive over the nested
inductive. -/

/-- A directory tree: regular files with contents, and directories that
may be unreadable. -/
inductive FsEntry where
  | file (name : String) (contents : Option (List Nat))
  | dir (name : String) (readable : Bool) (children : List FsEntry)

mutual

/-- Structural size of one tree entry, used as recursion fuel. -/
def entrySize : FsEntry → Nat
  | FsEntry.file _ _ => 1
  | FsEntry.dir _ _ ch => 1 + entriesSize ch

/-- Structural size of a list of tree entries. -/
def entriesSize : List FsEntry → Nat
  | [] => 0
  | e :: rest => 1 + entrySize e + entriesSize rest

end

/-- The walk event for one directory entry as listed by its parent. -/
def childEvent (base : List String) : FsEntry → WalkEvent
  | FsEntry.file n c => WalkEvent.fileEv ⟨base ++ [n], c⟩
  | FsEntry.dir n _ _ => WalkEvent.dirEv (base ++ [n])

/-- The events produced after a directory's own children were yielded:
for each readable subdirectory in order, its children and then its
subtree.  Scanning an unreadable directory raises `PermissionError`, but
`pathlib` catches it inside the glob selectors (`except PermissionError:
return`, present since 3.6 and in this interpreter line) and moves on, so
the walk silently skips that subtree and continues with its siblings —
the iterator itself never surfaces the error, and no `permErr` event ever
arises from a directory tree. -/
def rglobAux : Nat → List String → List FsEntry → List WalkEvent
  | _, _, [] => []
  | 0, _, _ :: _ => []
  | fuel + 1, base, FsEntry.file _ _ :: rest => rglobAux fuel base rest
  | fuel + 1, base, FsEntry.dir n r ch :: rest =>
      if r then
        ch.map (childEvent (base ++ [n])) ++ rglobAux fuel (base ++ [n]) ch ++
          rglobAux fuel base rest
      else rglobAux fuel base rest

/-- The event stream of `Path(root).rglob('*')` over a tree whose root
directory holds `entries` and whose own path components are `rootParts`. -/
def rglobStream (rootParts : List String) (entries : List FsEntry) : List WalkEvent :=
  entries.map (childEvent rootParts) ++ rglobAux (entriesSize entries) rootParts entries

mutual

/-- Whether a tree entry and everything below it is readable. -/
def entryReadable : FsEntry → Bool
  | FsEntry.file _ _ => true
  | FsEntry.dir _ r ch => r && entriesReadable ch

/-- Whether every directory in a list of tree entries is readable. -/
def entriesReadable : List FsEntry → Bool
  | [] => true
  | e :: rest => entryReadable e && entriesReadable rest

end

/-- Restriction to fully readable trees: every directory at every depth
is readable, so every regular file is accessible.  The walk itself always
completes — `pathlib` swallows the permission errors of unreadable
directories — so this is a scope restriction, not a completion flag. -/
def walkOk (rootParts : List String) (entries : List FsEntry) : Bool :=
  entriesReadable entries

/-- All regular files of the tree, at any depth, with their path parts. -/
def filesUnderAux : Nat → List String → List FsEntry → List FileRef
  | _, _, [] => []
  | 0, _, _ :: _ => []
  | fuel + 1, base, FsEntry.file n c :: rest =>
      ⟨base ++ [n], c⟩ :: filesUnderAux fuel base rest
  | fuel + 1, base, FsEntry.dir n _ ch :: rest =>
      filesUnderAux fuel (base ++ [n]) ch ++ filesUnderAux fuel base rest

/-- The set of regular files under the root, as a list in preorder. -/
def filesUnder (rootParts : List String) (entries : List FsEntry) : List FileRef :=
  filesUnderAux (entriesSize entries) rootParts entries

/-- The accessible regular files of the tree: those whose every ancestor
directory is readable.  Files below an unreadable directory are skipped
by the walk. -/
def accessibleFilesUnderAux : Nat → List String → List FsEntry → List FileRef
  | _, _, [] => []
  | 0, _, _ :: _ => []
  | fuel + 1, base, FsEntry.file n c :: rest =>
      ⟨base ++ [n], c⟩ :: accessibleFilesUnderAux fuel base rest
  | fuel + 1, base, FsEntry.dir n r ch :: rest =>
      (if r then accessibleFilesUnderAux fuel (base ++ [n]) ch else []) ++
        accessibleFilesUnderAux fuel base rest

/-- The set of accessible regular files under the root. -/
def accessibleFilesUnder (rootParts : List String) (entries : List FsEntry) :
    List FileRef :=
  accessibleFilesUnderAux (entriesSize entries) rootParts entries

/-- The files mentioned by an event stream, in order. -/
def streamFiles (events : List WalkEvent) : List FileRef :=
  events.filterMap (fun e =>
    match e with
    | WalkEvent.fileEv f => some f
    | _ => none)

/-! ## Spec-side definitions

These two definitions follow the specification's words, not the code:
they are the properties the code's output is compared against. -/

/-- Follows the spec (sections 3 and 6): a complete, valid JSON document of
the schema with the opening brace, the `"hashes"` array holding the given
records, and the closing tokens — the document family the writer is
specified to produce. -/
def specValidHashDoc (s : String) : Prop :=
  ∃ rs : List Record, s = docPreamble ++ entriesBlock rs ++ docClose

/-- Follows the spec's writer invariant (section 3): the sink is empty, or
a strict prefix of the document that stops before the closing tokens, or
the complete document. -/
def sinkInv (s : String) : Prop :=
  s = "" ∨ (∃ rs : List Record, s = docPreamble ++ entriesBlock rs) ∨
    (∃ rs : List Record, s = docPreamble ++ entriesBlock rs ++ docClose)

/-- The first byte of the sink that is not JSON whitespace.  A JSON
document whose top-level value is an object must have an opening brace
here; no JSON document at all may have a closing bracket here. -/
def firstNonWs (s : String) : Option Char :=
  s.data.find? (fun c => !(c = ' ' || c = '\n' || c = '\t' || c = '\r'))

/-! ## Helper lemmas about chunking -/

theorem chunksAux_fuel {α : Type} (n : Nat) :
    ∀ (fuel₁ fuel₂ : Nat) (l : List α), l.length ≤ fuel₁ → l.length ≤ fuel₂ →
      chunksAux n fuel₁ l = chunksAux n fuel₂ l := by
  intro fuel₁
  induction fuel₁ with
  | zero =>
      intro fuel₂ l hl₁ _
      have : l = [] := List.length_eq_zero.mp (Nat.le_zero.mp hl₁)
      subst this
      cases fuel₂ <;> rfl
  | succ f ih =>
      intro fuel₂ l hl₁ hl₂
      cases l with
      | nil => cases fuel₂ <;> rfl
      | cons x xs =>
          cases fuel₂ with
          | zero => exact absurd hl₂ (by simp)
          | succ f₂ =>
              simp only [chunksAux]
              by_cases hn : n = 0
              · simp [hn]
              · simp only [hn, if_false]
                have hpos : 0 < n := Nat.pos_of_ne_zero hn
                have hdrop : ((x :: xs).drop n).length ≤ f := by
                  simp only [List.length_drop, List.length_cons]
                  simp only [List.length_cons] at hl₁
                  omega
                have hdrop₂ : ((x :: xs).drop n).length ≤ f₂ := by
                  simp only [List.length_drop, List.length_cons]
                  simp only [List.length_cons] at hl₂
                  omega
                rw [ih _ _ hdrop hdrop₂]

theorem foldl_append_eq_join {α : Type} (L : List (List α)) :
    ∀ acc : List α, L.foldl (fun a c => a ++ c) acc = acc ++ L.flatten := by
  induction L with
  | nil => intro acc; simp
  | cons c cs ih => intro acc; simp [List.foldl_cons, ih]

theorem chunksAux_join {α : Type} (n : Nat) (hn : 0 < n) :
    ∀ (fuel : Nat) (l : List α), l.length ≤ fuel → (chunksAux n fuel l).flatten = l := by
  intro fuel
  induction fuel with
  | zero =>
      intro l hl
      have : l = [] := List.length_eq_zero.mp (Nat.le_zero.mp hl)
      subst this; rfl
  | succ f ih =>
      intro l hl
      cases l with
      | nil => rfl
      | cons x xs =>
          have hn' : n ≠ 0 := Nat.pos_iff_ne_zero.mp hn
          simp only [chunksAux, hn', if_false, List.flatten]
          have hdrop : ((x :: xs).drop n).length ≤ f := by
            simp only [List.length_drop, List.length_cons]
            simp only [List.length_cons] at hl
            omega
          rw [ih _ hdrop, List.take_append_drop]

theorem chunksOf_join {α : Type} (n : Nat) (hn : 0 < n) (l : List α) :
    (chunksOf n l).flatten = l :=
  chunksAux_join n hn l.length l (Nat.le_refl _)

/-- The absorbed byte sequence of the chunked read is the whole content. -/
theorem compute_file_hash_some (digestHex : List Nat → String) (c : List Nat) :
    compute_file_hash digestHex (some c) = some (digestHex c) := by
  simp only [compute_file_hash]
  rw [foldl_append_eq_join, List.nil_append,
    chunksOf_join CHUNK_SIZE (by decide) c]

theorem entriesTail_append (a b : List Record) :
    entriesTail (a ++ b) = entriesTail a ++ entriesTail b := by
  induction a with
  | nil => simp [entriesTail]
  | cons r rest ih => simp [entriesTail, ih, String.append_assoc]

theorem entriesBlock_append (a b : List Record) (ha : a ≠ []) :
    entriesBlock (a ++ b) = entriesBlock a ++ entriesTail b := by
  cases a with
  | nil => exact absurd rfl ha
  | cons r rest => simp [entriesBlock, entriesTail_append, String.append_assoc]

theorem fullChunksAux_fuel {α : Type} (n : Nat) :
    ∀ (fuel₁ fuel₂ : Nat) (l : List α), l.length ≤ fuel₁ → l.length ≤ fuel₂ →
      fullChunksAux n fuel₁ l = fullChunksAux n fuel₂ l := by
  intro fuel₁
  induction fuel₁ with
  | zero =>
      intro fuel₂ l hl₁ _
      have : l = [] := List.length_eq_zero.mp (Nat.le_zero.mp hl₁)
      subst this
      cases fuel₂ <;> rfl
  | succ f ih =>
      intro fuel₂ l hl₁ hl₂
      cases l with
      | nil => cases fuel₂ <;> rfl
      | cons x xs =>
          cases fuel₂ with
          | zero => exact absurd hl₂ (by simp)
          | succ f₂ =>
              simp only [fullChunksAux, List.length_cons]
              by_cases hc : n = 0 ∨ xs.length + 1 < n
              · rw [if_pos hc, if_pos hc]
              · rw [if_neg hc, if_neg hc]
                push_neg at hc
                have hdrop : ((x :: xs).drop n).length ≤ f := by
                  simp only [List.length_drop, List.length_cons]
                  simp only [List.length_cons] at hl₁
                  omega
                have hdrop₂ : ((x :: xs).drop n).length ≤ f₂ := by
                  simp only [List.length_drop, List.length_cons]
                  simp only [List.length_cons] at hl₂
                  omega
                rw [ih _ _ hdrop hdrop₂]

theorem chunksOf_small {α : Type} (n : Nat) (l : List α) (hl : l.length < n) :
    chunksOf n l = if l.isEmpty then [] else [l] := by
  cases l with
  | nil => rfl
  | cons x xs =>
      have hn : n ≠ 0 := by
        intro h; rw [h] at hl; exact Nat.not_lt_zero _ hl
      simp only [chunksOf, List.length_cons, chunksAux, hn, if_false, List.isEmpty_cons]
      have htake : (x :: xs).take n = x :: xs :=
        List.take_of_length_le (Nat.le_of_lt hl)
      have hdrop : (x :: xs).drop n = [] :=
        List.drop_eq_nil_of_le (Nat.le_of_lt hl)
      rw [htake, hdrop]
      cases xs.length <;> rfl

theorem fullChunksOf_small {α : Type} (n : Nat) (l : List α) (hl : l.length < n) :
    fullChunksOf n l = [] := by
  cases l with
  | nil => rfl
  | cons x xs =>
      simp only [fullChunksOf, List.length_cons, fullChunksAux]
      rw [if_pos (Or.inr (by simpa using hl))]

theorem chunksOf_cons_full {α : Type} (n : Nat) (hn : 0 < n) (a b : List α)
    (ha : a.length = n) : chunksOf n (a ++ b) = a :: chunksOf n b := by
  cases a with
  | nil => rw [← ha] at hn; exact absurd hn (by simp)
  | cons x a' =>
      have hn' : n ≠ 0 := Nat.pos_iff_ne_zero.mp hn
      have htake : List.take n (x :: (a' ++ b)) = x :: a' := by
        rw [← ha, ← List.cons_append]
        exact List.take_left _ _
      have hdrop : List.drop n (x :: (a' ++ b)) = b := by
        rw [← ha, ← List.cons_append]
        exact List.drop_left _ _
      simp only [chunksOf, List.cons_append, List.length_cons]
      simp only [chunksAux, hn', if_false]
      rw [htake, hdrop]
      congr 1
      apply chunksAux_fuel
      · simp only [List.length_append]
        omega
      · exact Nat.le_refl _

theorem fullChunksOf_cons_full {α : Type} (n : Nat) (hn : 0 < n) (a b : List α)
    (ha : a.length = n) : fullChunksOf n (a ++ b) = a :: fullChunksOf n b := by
  cases a with
  | nil => rw [← ha] at hn; exact absurd hn (by simp)
  | cons x a' =>
      have htake : List.take n (x :: (a' ++ b)) = x :: a' := by
        rw [← ha, ← List.cons_append]
        exact List.take_left _ _
      have hdrop : List.drop n (x :: (a' ++ b)) = b := by
        rw [← ha, ← List.cons_append]
        exact List.drop_left _ _
      simp only [fullChunksOf, List.cons_append, List.length_cons]
      simp only [fullChunksAux]
      have hcond : ¬(n = 0 ∨ (x :: (a' ++ b)).length < n) := by
        push_neg
        constructor
        · exact Nat.pos_iff_ne_zero.mp hn
        · simp only [List.length_cons] at ha
          simp only [List.length_cons, List.length_append]
          omega
      rw [if_neg hcond]
      rw [htake, hdrop]
      congr 1
      apply fullChunksAux_fuel
      · simp only [List.length_append]
        omega
      · exact Nat.le_refl _

theorem scanLoop_cons_file (B : Nat) (f : FileRef) (rest : List WalkEvent)
    (fb : List FileRef) (acc : List (List FileRef)) :
    scanLoop B (WalkEvent.fileEv f :: rest) fb acc =
      if excludedPath f.parts then scanLoop B rest fb acc
      else if (fb ++ [f]).length = B then scanLoop B rest [] (acc ++ [fb ++ [f]])
      else scanLoop B rest (fb ++ [f]) acc := rfl

theorem scanLoop_cons_dir (B : Nat) (parts : List String) (rest : List WalkEvent)
    (fb : List FileRef) (acc : List (List FileRef)) :
    scanLoop B (WalkEvent.dirEv parts :: rest) fb acc = scanLoop B rest fb acc := rfl

/-- The scanner on an error-free walk yields exactly the accepted files
grouped into batches of `B`, with a final shorter batch for the remainder,
and records no error. -/
theorem scanLoop_clean (B : Nat) (hB : 0 < B) :
    ∀ (events : List WalkEvent) (fb : List FileRef) (acc : List (List FileRef)),
      errFree events = true → fb.length < B →
      scanLoop B events fb acc = ⟨acc ++ chunksOf B (fb ++ acceptedFiles events), none⟩ := by
  intro events
  induction events with
  | nil =>
      intro fb acc _ hfb
      simp only [scanLoop, acceptedFiles, List.filterMap_nil, List.append_nil]
      rw [chunksOf_small B fb hfb]
  | cons e rest ih =>
      intro fb acc herr hfb
      cases e with
      | fileEv f =>
          have herr' : errFree rest = true := by
            simp only [errFree, List.all_cons, Bool.and_eq_true] at herr
            exact herr.2
          by_cases hex : excludedPath f.parts
          · simp only [scanLoop, hex, if_true]
            rw [ih fb acc herr' hfb]
            simp [acceptedFiles, hex]
          · simp only [scanLoop, hex, if_false]
            have hacc : acceptedFiles (WalkEvent.fileEv f :: rest) = f :: acceptedFiles rest := by
              simp [acceptedFiles, hex]
            by_cases hlen : (fb ++ [f]).length = B
            · simp only [hlen, if_pos rfl]
              rw [ih [] (acc ++ [fb ++ [f]]) herr' (by simpa using hB)]
              rw [hacc]
              have : fb ++ f :: acceptedFiles rest = (fb ++ [f]) ++ acceptedFiles rest := by
                simp
              rw [this, chunksOf_cons_full B hB _ _ hlen]
              simp
            · rw [if_neg hlen]
              have hlt : (fb ++ [f]).length < B := by
                simp only [List.length_append, List.length_cons, List.length_nil] at *
                omega
              rw [ih (fb ++ [f]) acc herr' hlt, hacc]
              simp [List.append_assoc]
      | dirEv parts =>
          have herr' : errFree rest = true := by
            simp only [errFree, List.all_cons, Bool.and_eq_true] at herr
            exact herr.2
          simp only [scanLoop]
          rw [ih fb acc herr' hfb]
          simp [acceptedFiles]
      | permErr => simp [errFree] at herr
      | fatalErr => simp [errFree] at herr

/-- The scanner on a walk whose iterator raises: the batches are exactly
the full batches of the accepted files seen before the error (the pending
partial batch is dropped), and the raised error is logged and recorded. -/
theorem scanLoop_err (B : Nat) (hB : 0 < B) :
    ∀ (pre : List WalkEvent) (e : WalkEvent) (post : List WalkEvent)
      (fb : List FileRef) (acc : List (List FileRef)),
      errFree pre = true → fb.length < B →
      (e = WalkEvent.permErr ∨ e = WalkEvent.fatalErr) →
      scanLoop B (pre ++ e :: post) fb acc =
        ⟨acc ++ fullChunksOf B (fb ++ acceptedFiles pre),
          some (if e = WalkEvent.permErr then ScanErr.permission else ScanErr.fatal)⟩ := by
  intro pre
  induction pre with
  | nil =>
      intro e post fb acc _ hfb he
      have hfull : fullChunksOf B (fb ++ acceptedFiles []) = [] := by
        rw [show acceptedFiles [] = [] from rfl, List.append_nil]
        exact fullChunksOf_small B fb hfb
      rcases he with rfl | rfl
      · simp [scanLoop, hfull]
      · simp [scanLoop, hfull]
  | cons e₀ rest ih =>
      intro e post fb acc herr hfb he
      cases e₀ with
      | fileEv f =>
          have herr' : errFree rest = true := by
            simp only [errFree, List.all_cons, Bool.and_eq_true] at herr
            exact herr.2
          rw [List.cons_append, scanLoop_cons_file]
          by_cases hex : excludedPath f.parts
          · rw [if_pos hex, ih e post fb acc herr' hfb he]
            simp [acceptedFiles, hex]
          · rw [if_neg hex]
            have hacc : acceptedFiles (WalkEvent.fileEv f :: rest) = f :: acceptedFiles rest := by
              simp [acceptedFiles, hex]
            by_cases hlen : (fb ++ [f]).length = B
            · rw [if_pos hlen,
                ih e post [] (acc ++ [fb ++ [f]]) herr' (by simpa using hB) he, hacc]
              have h2 : fb ++ f :: acceptedFiles rest = (fb ++ [f]) ++ acceptedFiles rest := by
                simp
              rw [h2, fullChunksOf_cons_full B hB _ _ hlen]
              simp
            · rw [if_neg hlen]
              have hlt : (fb ++ [f]).length < B := by
                simp only [List.length_append, List.length_cons, List.length_nil] at *
                omega
              rw [ih e post (fb ++ [f]) acc herr' hlt he, hacc]
              simp [List.append_assoc]
      | dirEv parts =>
          have herr' : errFree rest = true := by
            simp only [errFree, List.all_cons, Bool.and_eq_true] at herr
            exact herr.2
          rw [List.cons_append, scanLoop_cons_dir, ih e post fb acc herr' hfb he]
          simp [acceptedFiles]
      | permErr => simp [errFree] at herr
      | fatalErr => simp [errFree] at herr

theorem shape_of_all_full {α : Type} (B : Nat) (hB : 0 < B) :
    ∀ bs : List (List α), (∀ b ∈ bs, b.length = B) → ScanShape B bs := by
  intro bs
  induction bs with
  | nil => intro _; exact ScanShape.nil
  | cons b rest ih =>
      intro h
      have hb : b.length = B := h b (List.mem_cons_self _ _)
      have hbne : b ≠ [] := by
        intro hnil
        rw [hnil] at hb
        simp at hb
        omega
      cases rest with
      | nil => exact ScanShape.single b hbne (Nat.le_of_eq hb)
      | cons c cs =>
          exact ScanShape.cons b (c :: cs) hb (by simp)
            (ih (fun x hx => h x (List.mem_cons_of_mem _ hx)))

theorem chunksAux_ne_nil {α : Type} (n : Nat) (hn : 0 < n) (fuel : Nat) (l : List α)
    (hl : l.length ≤ fuel) (hne : l ≠ []) : chunksAux n fuel l ≠ [] := by
  cases l with
  | nil => exact absurd rfl hne
  | cons x xs =>
      cases fuel with
      | zero => exact absurd hl (by simp)
      | succ f =>
          simp only [chunksAux, Nat.pos_iff_ne_zero.mp hn, if_false]
          exact List.cons_ne_nil _ _

theorem chunksAux_shape {α : Type} (n : Nat) (hn : 0 < n) :
    ∀ (fuel : Nat) (l : List α), l.length ≤ fuel → ScanShape n (chunksAux n fuel l) := by
  intro fuel
  induction fuel with
  | zero =>
      intro l hl
      have : l = [] := List.length_eq_zero.mp (Nat.le_zero.mp hl)
      subst this
      exact ScanShape.nil
  | succ f ih =>
      intro l hl
      cases l with
      | nil => exact ScanShape.nil
      | cons x xs =>
          have hn' : n ≠ 0 := Nat.pos_iff_ne_zero.mp hn
          simp only [chunksAux, hn', if_false]
          by_cases hle : (x :: xs).length ≤ n
          · have hdrop : (x :: xs).drop n = [] := List.drop_eq_nil_of_le hle
            have htake : (x :: xs).take n = x :: xs := List.take_of_length_le hle
            rw [hdrop, htake]
            have : chunksAux n f ([] : List α) = [] := by cases f <;> rfl
            rw [this]
            exact ScanShape.single _ (List.cons_ne_nil _ _) (by simpa using hle)
          · push_neg at hle
            have htakelen : ((x :: xs).take n).length = n := by
              rw [List.length_take]
              omega
            have hdroplen : ((x :: xs).drop n).length ≤ f := by
              simp only [List.length_drop, List.length_cons]
              simp only [List.length_cons] at hl
              omega
            have hdropne : (x :: xs).drop n ≠ [] := by
              intro hnil
              have := congrArg List.length hnil
              simp only [List.length_drop, List.length_nil] at this
              omega
            exact ScanShape.cons _ _ htakelen
              (chunksAux_ne_nil n hn f _ hdroplen hdropne)
              (ih _ hdroplen)

theorem chunksOf_shape {α : Type} (n : Nat) (hn : 0 < n) (l : List α) :
    ScanShape n (chunksOf n l) :=
  chunksAux_shape n hn l.length l (Nat.le_refl _)

theorem fullChunksAux_all_full {α : Type} (n : Nat) :
    ∀ (fuel : Nat) (l : List α) (b : List α), b ∈ fullChunksAux n fuel l → b.length = n := by
  intro fuel
  induction fuel with
  | zero =>
      intro l b hb
      cases l <;> simp [fullChunksAux] at hb
  | succ f ih =>
      intro l b hb
      cases l with
      | nil => simp [fullChunksAux] at hb
      | cons x xs =>
          simp only [fullChunksAux] at hb
          by_cases hc : n = 0 ∨ (x :: xs).length < n
          · rw [if_pos hc] at hb
            simp at hb
          · rw [if_neg hc] at hb
            push_neg at hc
            rcases List.mem_cons.mp hb with hb | hb
            · subst hb
              rw [List.length_take]
              have := hc.2
              omega
            · exact ih _ _ hb

theorem fullChunksOf_all_full {α : Type} (n : Nat) (l : List α) :
    ∀ b ∈ fullChunksOf n l, b.length = n :=
  fun b hb => fullChunksAux_all_full n l.length l b hb

theorem chunksAux_all_full_of_mod {α : Type} (n : Nat) (hn : 0 < n) :
    ∀ (fuel : Nat) (l : List α), l.length ≤ fuel → l.length % n = 0 →
      ∀ b ∈ chunksAux n fuel l, b.length = n := by
  intro fuel
  induction fuel with
  | zero =>
      intro l hl _ b hb
      have : l = [] := List.length_eq_zero.mp (Nat.le_zero.mp hl)
      subst this
      simp [chunksAux] at hb
  | succ f ih =>
      intro l hl hmod b hb
      cases l with
      | nil => simp [chunksAux] at hb
      | cons x xs =>
          have hn' : n ≠ 0 := Nat.pos_iff_ne_zero.mp hn
          simp only [chunksAux, hn', if_false] at hb
          have hge : n ≤ (x :: xs).length := by
            by_contra hlt
            push_neg at hlt
            have h1 : (x :: xs).length % n = (x :: xs).length := Nat.mod_eq_of_lt hlt
            rw [h1] at hmod
            simp at hmod
          rcases List.mem_cons.mp hb with hb | hb
          · subst hb
            rw [List.length_take]
            omega
          · have hdroplen : ((x :: xs).drop n).length ≤ f := by
              simp only [List.length_drop, List.length_cons]
              simp only [List.length_cons] at hl
              omega
            have hdropmod : ((x :: xs).drop n).length % n = 0 := by
              rw [List.length_drop]
              obtain ⟨k, hk⟩ := Nat.dvd_of_mod_eq_zero hmod
              cases k with
              | zero => rw [Nat.mul_zero] at hk; simp at hk
              | succ k' =>
                  have hk' : (x :: xs).length = n * k' + n := by
                    rw [hk, Nat.mul_succ]
                  have hsub : (x :: xs).length - n = n * k' := by omega
                  rw [hsub]
                  exact Nat.mul_mod_right n k'
            exact ih _ hdroplen hdropmod b hb

theorem chunksOf_all_full_of_mod {α : Type} (n : Nat) (hn : 0 < n) (l : List α)
    (hmod : l.length % n = 0) : ∀ b ∈ chunksOf n l, b.length = n :=
  chunksAux_all_full_of_mod n hn l.length l (Nat.le_refl _) hmod

theorem chunksOf_ne_nil {α : Type} (n : Nat) (hn : 0 < n) (l : List α) (hne : l ≠ []) :
    chunksOf n l ≠ [] :=
  chunksAux_ne_nil n hn l.length l (Nat.le_refl _) hne

/-- Every event stream is error-free or splits at its first raised error. -/
theorem errFree_or_split (events : List WalkEvent) :
    errFree events = true ∨
      ∃ pre e post, events = pre ++ e :: post ∧ errFree pre = true ∧
        (e = WalkEvent.permErr ∨ e = WalkEvent.fatalErr) := by
  induction events with
  | nil => exact Or.inl rfl
  | cons e rest ih =>
      cases e with
      | fileEv f =>
          rcases ih with h | ⟨pre, e', post, hsplit, hpre, he'⟩
          · exact Or.inl (by simp [errFree] at h ⊢; exact h)
          · refine Or.inr ⟨WalkEvent.fileEv f :: pre, e', post, ?_, ?_, he'⟩
            · rw [hsplit]; rfl
            · simp [errFree] at hpre ⊢; exact hpre
      | dirEv parts =>
          rcases ih with h | ⟨pre, e', post, hsplit, hpre, he'⟩
          · exact Or.inl (by simp [errFree] at h ⊢; exact h)
          · refine Or.inr ⟨WalkEvent.dirEv parts :: pre, e', post, ?_, ?_, he'⟩
            · rw [hsplit]; rfl
            · simp [errFree] at hpre ⊢; exact hpre
      | permErr => exact Or.inr ⟨[], WalkEvent.permErr, rest, rfl, rfl, Or.inl rfl⟩
      | fatalErr => exact Or.inr ⟨[], WalkEvent.fatalErr, rest, rfl, rfl, Or.inr rfl⟩

/-- The scanner always produces a batch list of the scanner shape. -/
theorem scan_shape (B : Nat) (hB : 0 < B) (events : List WalkEvent) :
    ScanShape B (list_files_in_batches B events).batches := by
  rcases errFree_or_split events with h | ⟨pre, e, post, hsplit, hpre, he⟩
  · rw [list_files_in_batches, scanLoop_clean B hB events [] [] h (by simpa using hB)]
    simpa using chunksOf_shape B hB (acceptedFiles events)
  · rw [hsplit, list_files_in_batches,
      scanLoop_err B hB pre e post [] [] hpre (by simpa using hB) he]
    simp only [List.nil_append]
    exact shape_of_all_full B hB _ (fullChunksOf_all_full B _)

theorem writeEntries_opened (fb : Bool) :
    ∀ data : List Record, writeEntries ⟨true, fb⟩ data = (⟨true, fb⟩, entriesTail data) := by
  intro data
  induction data with
  | nil => rfl
  | cons r rest ih =>
      simp only [writeEntries, entriesTail, ih, if_true]

theorem writeEntries_fresh (fb : Bool) (data : List Record) (hne : data ≠ []) :
    writeEntries ⟨false, fb⟩ data = (⟨true, fb⟩, entriesBlock data) := by
  cases data with
  | nil => exact absurd rfl hne
  | cons r rest =>
      simp [writeEntries, entriesBlock, writeEntries_opened, String.empty_append]

theorem write_to_json_nil (st : WriterState) (is_last_batch : Bool) :
    write_to_json st [] is_last_batch = (st, "") := rfl

theorem write_to_json_unopened (data : List Record) (is_last_batch : Bool)
    (hne : data ≠ []) :
    write_to_json ⟨false, false⟩ data is_last_batch =
      (⟨true, true⟩,
        docPreamble ++ entriesBlock data ++ (if is_last_batch then docClose else "")) := by
  simp only [write_to_json, List.isEmpty_eq_true, hne, if_false]
  rw [if_neg Bool.false_ne_true, if_neg Bool.false_ne_true]
  rw [writeEntries_fresh true data hne]

theorem write_to_json_opened (data : List Record) (is_last_batch : Bool)
    (hne : data ≠ []) :
    write_to_json ⟨true, true⟩ data is_last_batch =
      (⟨true, true⟩, entriesTail data ++ (if is_last_batch then docClose else "")) := by
  simp only [write_to_json, List.isEmpty_eq_true, hne, if_false, if_true]
  rw [writeEntries_opened]
  rw [String.empty_append]

/-- One loop iteration of `main` starting from the invariant state that
`rs` are the records written so far and the document is not yet closed. -/
theorem mainStep_char (digestHex : List Nat → String) (B : Nat)
    (rs : List Record) (flag : Bool) (c : Nat) (b : List FileRef) :
    mainStep digestHex B false ⟨wflags rs, midSink rs, flag, c⟩ b =
      ⟨wflags (rs ++ process_batch digestHex b),
        midSink (rs ++ process_batch digestHex b) ++
          (if decide (b.length < B) && !(process_batch digestHex b).isEmpty
            then docClose else ""),
        decide (b.length < B),
        c + (if decide (b.length < B) && !(process_batch digestHex b).isEmpty
          then 1 else 0)⟩ := by
  by_cases hres : process_batch digestHex b = []
  · simp [mainStep, hres, String.append_empty]
  · have hres' : (process_batch digestHex b).isEmpty = false := by
      simp [List.isEmpty_eq_true, hres]
    by_cases hrs : rs = []
    · subst hrs
      have h3 : wflags (([] : List Record) ++ process_batch digestHex b) = ⟨true, true⟩ := by
        simp [wflags, List.isEmpty_eq_true, hres]
      have h4 : midSink (([] : List Record) ++ process_batch digestHex b) =
          docPreamble ++ entriesBlock (process_batch digestHex b) := by
        simp [midSink, List.isEmpty_eq_true, hres]
      simp only [mainStep, show wflags ([] : List Record) = ⟨false, false⟩ from rfl,
        show midSink ([] : List Record) = "" from rfl, h3, h4]
      rw [write_to_json_unopened _ _ hres]
      simp [hres', String.append_assoc, String.empty_append]
    · have h3 : wflags rs = ⟨true, true⟩ := by
        simp [wflags, List.isEmpty_eq_true, hrs]
      have h4 : midSink rs = docPreamble ++ entriesBlock rs := by
        simp [midSink, List.isEmpty_eq_true, hrs]
      have h5 : wflags (rs ++ process_batch digestHex b) = ⟨true, true⟩ := by
        simp [wflags, List.isEmpty_eq_true, hrs]
      have h6 : midSink (rs ++ process_batch digestHex b) =
          docPreamble ++ entriesBlock (rs ++ process_batch digestHex b) := by
        simp [midSink, List.isEmpty_eq_true, hrs]
      simp only [mainStep, h3, h4, h5, h6]
      rw [write_to_json_opened _ _ hres, entriesBlock_append rs _ hrs]
      simp [hres', String.append_assoc]

/-- Running `main`'s loop over a batch list of scanner shape, starting
from the invariant state: the final state keeps the accumulated records,
closes the document exactly when the last batch is short and produced
records, and its `is_last_batch` reflects the last batch's length. -/
theorem mainLoop_char (digestHex : List Nat → String) (B : Nat) (hB : 0 < B) :
    ∀ (bs : List (List FileRef)), ScanShape B bs →
      ∀ (rs : List Record) (flag : Bool) (c : Nat),
      bs.foldl (mainStep digestHex B false) ⟨wflags rs, midSink rs, flag, c⟩ =
        match bs.getLast? with
        | none => ⟨wflags rs, midSink rs, flag, c⟩
        | some lb =>
            ⟨wflags (rs ++ batchRecs digestHex bs),
              midSink (rs ++ batchRecs digestHex bs) ++
                (if decide (lb.length < B) && !(process_batch digestHex lb).isEmpty
                  then docClose else ""),
              decide (lb.length < B),
              c + (if decide (lb.length < B) && !(process_batch digestHex lb).isEmpty
                then 1 else 0)⟩ := by
  intro bs hshape
  induction hshape with
  | nil => intro rs flag c; rfl
  | single b hne hle =>
      intro rs flag c
      simp only [List.foldl_cons, List.foldl_nil, List.getLast?_singleton]
      rw [mainStep_char]
      have : batchRecs digestHex [b] = process_batch digestHex b := by
        simp [batchRecs]
      rw [this]
  | cons b bs' hfull hne hshape' ih =>
      intro rs flag c
      have hnotlt : decide (b.length < B) = false := by
        simp [hfull]
      simp only [List.foldl_cons]
      rw [mainStep_char]
      simp only [hnotlt, Bool.false_and, Bool.false_eq_true, if_false, Nat.add_zero,
        String.append_empty]
      rw [ih (rs ++ process_batch digestHex b) false c]
      cases bs' with
      | nil => exact absurd rfl hne
      | cons b₂ bs₂ =>
          rw [List.getLast?_cons_cons]
          have hrecs : batchRecs digestHex (b :: b₂ :: bs₂) =
              process_batch digestHex b ++ batchRecs digestHex (b₂ :: bs₂) := by
            simp [batchRecs]
          cases hlast : (b₂ :: bs₂).getLast? with
          | none => simp at hlast
          | some lb =>
              simp only []
              rw [hrecs, List.append_assoc]

/-- The workhorse: a non-dry run of `main` reaches exactly the closed-form
state determined by the scanner's batches. -/
theorem mainRun_char (digestHex : List Nat → String) (B : Nat)
    (events : List WalkEvent) (hB : 0 < B) :
    mainRun digestHex B events false =
      expectedState digestHex B (list_files_in_batches B events).batches := by
  have hshape := scan_shape B hB events
  simp only [mainRun]
  rw [show initState = (⟨wflags [], midSink [], false, 0⟩ : RunState) from rfl]
  rw [mainLoop_char digestHex B hB _ hshape [] false 0]
  cases hlast : (list_files_in_batches B events).batches.getLast? with
  | none =>
      simp [expectedState, hlast, wflags, midSink, String.empty_append]
  | some lb =>
      simp only [hlast]
      by_cases hlt : decide (lb.length < B) = true
      · by_cases hemp : (process_batch digestHex lb).isEmpty = true
        · simp [expectedState, hlast, hlt, hemp]
        · simp only [Bool.not_eq_true] at hemp
          simp [expectedState, hlast, hlt, hemp]
      · simp only [Bool.not_eq_true] at hlt
        by_cases hemp : (process_batch digestHex lb).isEmpty = true
        · simp [expectedState, hlast, hlt, hemp, String.append_empty]
        · simp only [Bool.not_eq_true] at hemp
          simp [expectedState, hlast, hlt, hemp, String.append_empty]

/-! ## Helper lemmas for the claims -/

theorem docClose_ne_pre_append (t : String) : docClose ≠ docPreamble ++ t := by
  intro h
  have h2 : docClose.data.head? = (docPreamble ++ t).data.head? := by rw [h]
  rw [String.data_append] at h2
  have h3 : docPreamble.data = '\x7b' :: "\n  \"hashes\": [\n".data := by decide
  rw [h3] at h2
  simp only [List.cons_append, List.head?_cons] at h2
  have h4 : docClose.data.head? = some '\n' := by decide
  rw [h4] at h2
  exact absurd (Option.some.inj h2) (by decide)

theorem not_specValidHashDoc_docClose : ¬ specValidHashDoc docClose := by
  rintro ⟨rs, h⟩
  exact docClose_ne_pre_append (entriesBlock rs ++ docClose)
    (h.trans (String.append_assoc _ _ _))

theorem not_sinkInv_docClose : ¬ sinkInv docClose := by
  rintro (h | ⟨rs, h⟩ | ⟨rs, h⟩)
  · exact absurd h (by decide)
  · exact docClose_ne_pre_append (entriesBlock rs) h
  · exact docClose_ne_pre_append (entriesBlock rs ++ docClose)
      (h.trans (String.append_assoc _ _ _))

theorem pbStep_acc : ∀ (zl : List (FileRef × Option String)) (acc : List Record),
    zl.foldl pbStep acc = acc ++ zl.foldl pbStep [] := by
  intro zl
  have hstep : ∀ (a : List Record) (z : FileRef × Option String),
      pbStep a z = a ++ pbStep [] z := by
    intro a z
    cases hz : z.2 with
    | none => simp [pbStep, hz]
    | some h =>
        by_cases he : h.isEmpty
        · simp [pbStep, hz, he]
        · simp [pbStep, hz, he]
  induction zl with
  | nil => intro acc; simp
  | cons z zs ih =>
      intro acc
      simp only [List.foldl_cons]
      rw [ih (pbStep acc z), ih (pbStep [] z), hstep acc z, List.append_assoc]

/-- `process_batch` keeps, in the batch's order, exactly the files whose
hash succeeds (and is nonempty), paired with their path string. -/
theorem process_batch_eq_filterMap (digestHex : List Nat → String) :
    ∀ batch : List FileRef,
      process_batch digestHex batch = batch.filterMap (recordOf digestHex) := by
  intro batch
  induction batch with
  | nil => rfl
  | cons f rest ih =>
      simp only [process_batch, List.map_cons, List.zip_cons_cons, List.foldl_cons,
        List.filterMap_cons]
      rw [pbStep_acc]
      have : (rest.zip (rest.map (fun file => compute_file_hash digestHex file.contents))).foldl
          pbStep [] = process_batch digestHex rest := rfl
      rw [this, ih]
      cases hc : compute_file_hash digestHex f.contents with
      | none => simp [pbStep, recordOf, hc]
      | some h =>
          by_cases he : h.isEmpty
          · simp [pbStep, recordOf, hc, he]
          · simp [pbStep, recordOf, hc, he]

/-- The records of a batch list are the records of its concatenation. -/
theorem batchRecs_eq_filterMap (digestHex : List Nat → String) :
    ∀ bs : List (List FileRef),
      batchRecs digestHex bs = bs.flatten.filterMap (recordOf digestHex) := by
  intro bs
  induction bs with
  | nil => rfl
  | cons b rest ih =>
      simp only [batchRecs, List.map_cons, List.flatten_cons, List.filterMap_append]
      rw [process_batch_eq_filterMap]
      simp only [batchRecs] at ih
      rw [ih]

/-- In a dry run the loop body never touches the writer state, the sink or
the close counter. -/
theorem mainStep_dry (digestHex : List Nat → String) (B : Nat) (s : RunState)
    (b : List FileRef) :
    mainStep digestHex B true s b = ⟨s.st, s.sink, decide (b.length < B), s.closes⟩ := rfl

theorem dry_foldl_sink (digestHex : List Nat → String) (B : Nat) :
    ∀ (bs : List (List FileRef)) (s : RunState),
      (bs.foldl (mainStep digestHex B true) s).sink = s.sink := by
  intro bs
  induction bs with
  | nil => intro s; rfl
  | cons b rest ih =>
      intro s
      simp only [List.foldl_cons, mainStep_dry]
      exact ih _

theorem dry_scanl_sink (digestHex : List Nat → String) (B : Nat) :
    ∀ (bs : List (List FileRef)) (s : RunState),
      ∀ x ∈ bs.scanl (mainStep digestHex B true) s, x.sink = s.sink := by
  intro bs
  induction bs with
  | nil =>
      intro s x hx
      simp only [List.scanl_nil, List.mem_singleton] at hx
      rw [hx]
  | cons b rest ih =>
      intro s x hx
      simp only [List.scanl_cons, List.singleton_append, List.mem_cons] at hx
      rcases hx with rfl | hx
      · rfl
      · rw [ih _ x hx, mainStep_dry]

theorem mem_of_getLast?_eq {α : Type} {l : List α} {x : α} (h : l.getLast? = some x) :
    x ∈ l := by
  obtain ⟨hne, rfl⟩ := List.mem_getLast?_eq_getLast (Option.mem_def.mpr h)
  exact List.getLast_mem hne

/-! ## The claims -/

/-- C9: for every two files with equal byte contents, `compute_file_hash`
returns equal digest strings; the digest is a function of the whole
content only — the chunked absorption with `CHUNK_SIZE` reads equals the
digest of the full byte sequence, so re-hashing an unchanged file
reproduces the same string. -/
theorem c9_content_digest (digestHex : List Nat → String) (c₁ c₂ : List Nat)
    (h : c₁ = c₂) :
    compute_file_hash digestHex (some c₁) = compute_file_hash digestHex (some c₂) ∧
    compute_file_hash digestHex (some c₁) = some (digestHex c₁) :=
  ⟨by rw [h], compute_file_hash_some digestHex c₁⟩

/-- Witness for C9 at a concrete digest function and content. -/
theorem c9_content_digest_witness :
    compute_file_hash (fun _ => "d") (some [7, 7, 7]) =
        compute_file_hash (fun _ => "d") (some [7, 7, 7]) ∧
      compute_file_hash (fun _ => "d") (some [7, 7, 7]) =
        some ((fun _ => "d") [7, 7, 7]) :=
  c9_content_digest (fun _ => "d") [7, 7, 7] [7, 7, 7] rfl

/-- C7: a file whose read or hash fails yields `None` from
`compute_file_hash` instead of raising; `process_batch` drops exactly the
failed files and keeps every other file's record, with the surviving
records in the batch's original order (the batch's `filterMap` image).
The hypothesis that the digest function never returns the empty string
holds for `blake2b` hex digests, which are 128 characters long. -/
theorem c7_failure_isolation (digestHex : List Nat → String) (batch : List FileRef)
    (hdh : ∀ c, digestHex c ≠ "") :
    process_batch digestHex batch =
      batch.filterMap (fun f =>
        (compute_file_hash digestHex f.contents).map (fun h => ⟨pathStr f, h⟩)) ∧
    compute_file_hash digestHex none = none := by
  refine ⟨?_, rfl⟩
  rw [process_batch_eq_filterMap]
  apply List.filterMap_congr
  intro f _
  cases hfc : f.contents with
  | none => simp [recordOf, compute_file_hash, hfc]
  | some c =>
      have hne : (digestHex c).isEmpty = false := by
        rcases hi : (digestHex c).isEmpty with _ | _
        · rfl
        · exact absurd ((String.isEmpty_iff (digestHex c)).mp hi) (hdh c)
      simp [recordOf, hfc, compute_file_hash_some, hne]

/-- Witness for C7 on a batch with one failing and two succeeding files. -/
theorem c7_failure_isolation_witness :
    process_batch (fun _ => "d")
        [⟨["r", "a"], some [1]⟩, ⟨["r", "c"], none⟩, ⟨["r", "b"], some [2]⟩] =
      [⟨["r", "a"], some [1]⟩, ⟨["r", "c"], none⟩,
        (⟨["r", "b"], some [2]⟩ : FileRef)].filterMap (fun f =>
        (compute_file_hash (fun _ => "d") f.contents).map (fun h => ⟨pathStr f, h⟩)) ∧
    compute_file_hash (fun _ => "d") none = none :=
  c7_failure_isolation (fun _ => "d")
    [⟨["r", "a"], some [1]⟩, ⟨["r", "c"], none⟩, ⟨["r", "b"], some [2]⟩]
    (by intro c; show "d" ≠ ""; decide)

/-- C10: `write_to_json` with an empty data list appends nothing and
leaves both writer flags unchanged, even with `is_last_batch` true; in a
run whose terminal (short) batch loses all its results, no closing tokens
are ever written: the close counter stays zero and the sink ends in the
unclosed mid-document state. -/
theorem c10_empty_write (st : WriterState) (is_last : Bool)
    (digestHex : List Nat → String) (B : Nat) (events : List WalkEvent)
    (lb : List FileRef) (hB : 0 < B)
    (hlast : (list_files_in_batches B events).batches.getLast? = some lb)
    (hshort : lb.length < B) (hfail : process_batch digestHex lb = []) :
    write_to_json st [] is_last = (st, "") ∧
    (mainRun digestHex B events false).closes = 0 ∧
    (mainRun digestHex B events false).sink =
      midSink (batchRecs digestHex (list_files_in_batches B events).batches) := by
  refine ⟨write_to_json_nil st is_last, ?_, ?_⟩ <;>
  · rw [mainRun_char digestHex B events hB]
    simp [expectedState, hlast, hshort, hfail, String.append_empty]

/-- Witness for C10: batch size 2, one unreadable file; the single batch
is short and terminal, all its results are dropped, and no closing tokens
appear. -/
theorem c10_empty_write_witness :
    write_to_json ⟨true, false⟩ [] true = (⟨true, false⟩, "") ∧
    (mainRun (fun _ => "h") 2 [WalkEvent.fileEv ⟨["r", "c"], none⟩] false).closes = 0 ∧
    (mainRun (fun _ => "h") 2 [WalkEvent.fileEv ⟨["r", "c"], none⟩] false).sink =
      midSink (batchRecs (fun _ => "h")
        (list_files_in_batches 2 [WalkEvent.fileEv ⟨["r", "c"], none⟩]).batches) :=
  c10_empty_write ⟨true, false⟩ true (fun _ => "h") 2
    [WalkEvent.fileEv ⟨["r", "c"], none⟩] [⟨["r", "c"], none⟩]
    (by decide) (by decide) (by decide) (by decide)

/-- C5: the claim that a dry run leaves the output file's prior contents
untouched fails: `main` unconditionally truncates the output file with
`open(output_file, 'w').close()` before checking `dry_run`, so a dry run
over a tree with prior contents in the sink ends with an empty sink (the
truncation) while never appending afterwards. -/
theorem c5_dry_run_truncates :
    (∀ (digestHex : List Nat → String) (B : Nat) (events : List WalkEvent)
        (prior : String) (i : Nat),
      main digestHex B events true prior = "" ∧
      (sinkStates digestHex B events true).getD i "" = "") ∧
    main (fun _ => "h") 20 [WalkEvent.fileEv ⟨["r", "a"], some [1]⟩] true
      "prior-contents" = "" := by
  constructor
  · intro digestHex B events prior i
    have hmr : (mainRun digestHex B events true).sink = "" := by
      have hguard : (!true && !((list_files_in_batches B events).batches.foldl
          (mainStep digestHex B true) initState).is_last) = false := rfl
      simp only [mainRun, hguard, Bool.false_eq_true, if_false]
      exact dry_foldl_sink digestHex B _ initState
    refine ⟨hmr, ?_⟩
    have hall : ∀ x ∈ sinkStates digestHex B events true, x = "" := by
      intro x hx
      simp only [sinkStates, List.mem_append, List.mem_map, List.mem_singleton] at hx
      rcases hx with ⟨r, hr, rfl⟩ | rfl
      · exact dry_scanl_sink digestHex B _ initState r hr
      · exact hmr
    rw [List.getD_eq_getElem?_getD]
    cases hg : (sinkStates digestHex B events true)[i]? with
    | none => rfl
    | some x => simpa using hall x (List.getElem?_mem hg)
  · rfl

theorem midSink_sinkInv (rs : List Record) : sinkInv (midSink rs) := by
  by_cases h : rs.isEmpty = true
  · exact Or.inl (by simp [midSink, h])
  · exact Or.inr (Or.inl ⟨rs, by simp [midSink, h]⟩)

theorem batchRecs_ne_nil_of_mem (digestHex : List Nat → String)
    {bs : List (List FileRef)} {lb : List FileRef} (hmem : lb ∈ bs)
    (hne : process_batch digestHex lb ≠ []) : batchRecs digestHex bs ≠ [] := by
  intro h
  exact hne (List.flatten_eq_nil_iff.mp h (process_batch digestHex lb)
    (List.mem_map_of_mem _ hmem))

theorem getLast?_eq_none_imp {α : Type} {l : List α} (h : l.getLast? = none) :
    l = [] := by
  cases l with
  | nil => rfl
  | cons x xs => simp at h

/-- Every intermediate state of `main`'s loop on scanner-shaped batches
satisfies the writer invariant on its sink. -/
theorem scanl_sink_inv (digestHex : List Nat → String) (B : Nat) :
    ∀ (bs : List (List FileRef)), ScanShape B bs →
      ∀ (rs : List Record) (flag : Bool) (c : Nat),
        ∀ s ∈ bs.scanl (mainStep digestHex B false) ⟨wflags rs, midSink rs, flag, c⟩,
          sinkInv s.sink := by
  intro bs hshape
  induction hshape with
  | nil =>
      intro rs flag c s hs
      simp only [List.scanl_nil, List.mem_singleton] at hs
      rw [hs]
      exact midSink_sinkInv rs
  | single b hne hle =>
      intro rs flag c s hs
      simp only [List.scanl_cons, List.scanl_nil, List.singleton_append,
        List.mem_cons, List.mem_singleton, List.not_mem_nil, or_false] at hs
      rcases hs with rfl | rfl
      · exact midSink_sinkInv rs
      · rw [mainStep_char]
        by_cases hcond : (decide (b.length < B) && !(process_batch digestHex b).isEmpty) = true
        · have hpb : process_batch digestHex b ≠ [] := by
            intro hnil
            rw [hnil] at hcond
            simp at hcond
          have hrs' : (rs ++ process_batch digestHex b).isEmpty = false := by
            simp [List.isEmpty_eq_true, hpb]
          simp only [hcond, if_true]
          refine Or.inr (Or.inr ⟨rs ++ process_batch digestHex b, ?_⟩)
          simp [midSink, hrs', String.append_assoc]
        · simp only [Bool.not_eq_true] at hcond
          simp only [hcond, Bool.false_eq_true, if_false, String.append_empty]
          exact midSink_sinkInv _
  | cons b bs' hfull hne hshape' ih =>
      intro rs flag c s hs
      simp only [List.scanl_cons, List.singleton_append, List.mem_cons] at hs
      rcases hs with rfl | hs
      · exact midSink_sinkInv rs
      · have hnotlt : decide (b.length < B) = false := by simp [hfull]
        rw [mainStep_char] at hs
        simp only [hnotlt, Bool.false_and, Bool.false_eq_true, if_false, Nat.add_zero,
          String.append_empty] at hs
        exact ih (rs ++ process_batch digestHex b) false c s hs

/-- C3: in a non-dry run whose accepted file count is a positive exact
multiple of the batch size, every batch (the last included) is full-size,
so no loop iteration writes the closing tokens or ends with the terminal
flag set, and the fallback close after the loop emits the array-end and
object-end tokens exactly once, completing the document. -/
theorem c3_exact_multiple_close (digestHex : List Nat → String) (B : Nat)
    (events : List WalkEvent) (hB : 0 < B) (herr : errFree events = true)
    (hpos : acceptedFiles events ≠ [])
    (hmul : (acceptedFiles events).length % B = 0) :
    ((list_files_in_batches B events).batches.foldl
        (mainStep digestHex B false) initState).closes = 0 ∧
    ((list_files_in_batches B events).batches.foldl
        (mainStep digestHex B false) initState).is_last = false ∧
    (mainRun digestHex B events false).closes = 1 ∧
    (mainRun digestHex B events false).sink =
      midSink (batchRecs digestHex (list_files_in_batches B events).batches) ++
        docClose := by
  have hscan : list_files_in_batches B events =
      ⟨chunksOf B (acceptedFiles events), none⟩ := by
    rw [list_files_in_batches, scanLoop_clean B hB events [] [] herr (by simpa using hB)]
    simp
  have hfullb : ∀ b ∈ (list_files_in_batches B events).batches, b.length = B := by
    rw [hscan]
    exact chunksOf_all_full_of_mod B hB _ hmul
  have hbne : (list_files_in_batches B events).batches ≠ [] := by
    rw [hscan]
    exact chunksOf_ne_nil B hB _ hpos
  obtain ⟨lb, hlb⟩ : ∃ lb, (list_files_in_batches B events).batches.getLast? = some lb := by
    cases h : (list_files_in_batches B events).batches.getLast? with
    | none => exact absurd (getLast?_eq_none_imp h) hbne
    | some lb => exact ⟨lb, rfl⟩
  have hlbfull : lb.length = B := hfullb lb (mem_of_getLast?_eq hlb)
  have hnotlt : decide (lb.length < B) = false := by simp [hlbfull]
  have hloop := mainLoop_char digestHex B hB _ (scan_shape B hB events) [] false 0
  rw [show (⟨wflags [], midSink [], false, 0⟩ : RunState) = initState from rfl] at hloop
  rw [hlb] at hloop
  simp only [hnotlt, Bool.false_and, Bool.false_eq_true, if_false, Nat.add_zero,
    String.append_empty] at hloop
  refine ⟨by rw [hloop], by rw [hloop], ?_, ?_⟩ <;>
  · rw [mainRun_char digestHex B events hB]
    simp [expectedState, hlb, hnotlt, hlbfull]

/-- Witness for C3: batch size 2 with exactly 2 accepted files. -/
theorem c3_exact_multiple_witness :
    ((list_files_in_batches 2
          [WalkEvent.fileEv ⟨["r", "a"], some [1]⟩,
            WalkEvent.fileEv ⟨["r", "b"], some [2]⟩]).batches.foldl
        (mainStep (fun _ => "h") 2 false) initState).closes = 0 ∧
    ((list_files_in_batches 2
          [WalkEvent.fileEv ⟨["r", "a"], some [1]⟩,
            WalkEvent.fileEv ⟨["r", "b"], some [2]⟩]).batches.foldl
        (mainStep (fun _ => "h") 2 false) initState).is_last = false ∧
    (mainRun (fun _ => "h") 2
        [WalkEvent.fileEv ⟨["r", "a"], some [1]⟩,
          WalkEvent.fileEv ⟨["r", "b"], some [2]⟩] false).closes = 1 ∧
    (mainRun (fun _ => "h") 2
        [WalkEvent.fileEv ⟨["r", "a"], some [1]⟩,
          WalkEvent.fileEv ⟨["r", "b"], some [2]⟩] false).sink =
      midSink (batchRecs (fun _ => "h")
          (list_files_in_batches 2
            [WalkEvent.fileEv ⟨["r", "a"], some [1]⟩,
              WalkEvent.fileEv ⟨["r", "b"], some [2]⟩]).batches) ++ docClose :=
  c3_exact_multiple_close (fun _ => "h") 2
    [WalkEvent.fileEv ⟨["r", "a"], some [1]⟩, WalkEvent.fileEv ⟨["r", "b"], some [2]⟩]
    (by decide) (by decide) (by decide) (by decide)

/-- C1 counterexample: in a non-dry run over a tree with zero files the
loop never runs, `is_last_batch` stays false, and the fallback appends the
closing tokens to the empty (truncated) file.  The output file's first
non-whitespace byte is `]`, so its bytes are not a JSON document of the
required form (no JSON value can begin with a closing bracket). -/
theorem c1_zero_files_counterexample :
    main (fun _ => "h") 20 [] false "" = docClose ∧
    firstNonWs (main (fun _ => "h") 20 [] false "") = some ']' ∧
    ¬ specValidHashDoc (main (fun _ => "h") 20 [] false "") := by
  refine ⟨rfl, by decide, ?_⟩
  rw [show main (fun _ => "h") 20 [] false "" = docClose from rfl]
  exact not_specValidHashDoc_docClose

/-- C1 as amended: in every non-dry run in which at least one file hashes
successfully and the final batch is either full-size or contains at least
one successfully hashed file, the output file is the valid JSON document
of the required schema, with one record per successfully hashed,
non-excluded scanned file, in scan order. -/
theorem c1_validity_amended (digestHex : List Nat → String) (B : Nat)
    (events : List WalkEvent) (prior : String) (hB : 0 < B)
    (hne : batchRecs digestHex (list_files_in_batches B events).batches ≠ [])
    (hlast : ∀ lb, (list_files_in_batches B events).batches.getLast? = some lb →
      B ≤ lb.length ∨ process_batch digestHex lb ≠ []) :
    specValidHashDoc (main digestHex B events false prior) ∧
    main digestHex B events false prior =
      docPreamble ++
        entriesBlock (batchRecs digestHex (list_files_in_batches B events).batches) ++
        docClose ∧
    batchRecs digestHex (list_files_in_batches B events).batches =
      (list_files_in_batches B events).batches.flatten.filterMap (recordOf digestHex) := by
  have hmid : midSink (batchRecs digestHex (list_files_in_batches B events).batches) =
      docPreamble ++ entriesBlock (batchRecs digestHex (list_files_in_batches B events).batches) := by
    simp [midSink, List.isEmpty_eq_true, hne]
  have hmain : main digestHex B events false prior =
      docPreamble ++
        entriesBlock (batchRecs digestHex (list_files_in_batches B events).batches) ++
        docClose := by
    rw [show main digestHex B events false prior = (mainRun digestHex B events false).sink
        from rfl]
    rw [mainRun_char digestHex B events hB]
    cases hlb : (list_files_in_batches B events).batches.getLast? with
    | none =>
        exact absurd (by rw [getLast?_eq_none_imp hlb]; rfl) hne
    | some lb =>
        by_cases hlt : decide (lb.length < B) = true
        · have hpb : process_batch digestHex lb ≠ [] := by
            rcases hlast lb hlb with h | h
            · rw [decide_eq_true_iff] at hlt
              omega
            · exact h
          have hemp : (process_batch digestHex lb).isEmpty = false := by
            simp [List.isEmpty_eq_true, hpb]
          simp [expectedState, hlb, hlt, hemp, hmid]
        · simp only [Bool.not_eq_true] at hlt
          simp [expectedState, hlb, hlt, hmid]
  exact ⟨⟨_, hmain⟩, hmain, batchRecs_eq_filterMap digestHex _⟩

/-- Witness for C1 as amended: batch size 1, one readable file. -/
theorem c1_validity_witness :
    specValidHashDoc (main (fun _ => "h") 1
        [WalkEvent.fileEv ⟨["r", "a"], some [1]⟩] false "old") ∧
    main (fun _ => "h") 1 [WalkEvent.fileEv ⟨["r", "a"], some [1]⟩] false "old" =
      docPreamble ++
        entriesBlock (batchRecs (fun _ => "h")
          (list_files_in_batches 1 [WalkEvent.fileEv ⟨["r", "a"], some [1]⟩]).batches) ++
        docClose ∧
    batchRecs (fun _ => "h")
        (list_files_in_batches 1 [WalkEvent.fileEv ⟨["r", "a"], some [1]⟩]).batches =
      (list_files_in_batches 1
          [WalkEvent.fileEv ⟨["r", "a"], some [1]⟩]).batches.flatten.filterMap
        (recordOf (fun _ => "h")) :=
  c1_validity_amended (fun _ => "h") 1 [WalkEvent.fileEv ⟨["r", "a"], some [1]⟩] "old"
    (by decide) (by decide)
    (by
      intro lb hlb
      rw [show (list_files_in_batches 1
          [WalkEvent.fileEv ⟨["r", "a"], some [1]⟩]).batches =
          [[⟨["r", "a"], some [1]⟩]] from by decide] at hlb
      simp only [List.getLast?_singleton, Option.some.injEq] at hlb
      rw [← hlb]
      left
      decide)

/-- C2 counterexample: the zero-file non-dry run appends the closing
tokens to the empty sink; after that write the sink is nonempty, is not a
prefix of the document (its first non-whitespace byte is a closing
bracket) and is not the complete document, violating the invariant. -/
theorem c2_invariant_counterexample :
    docClose ∈ sinkStates (fun _ => "h") 20 [] false ∧
    firstNonWs docClose = some ']' ∧
    ¬ sinkInv docClose :=
  ⟨by decide, by decide, not_sinkInv_docClose⟩

/-- C2 as amended: the writer invariant holds at every point between
writer invocations, provided the run is not one in which the fallback
close fires on a document that was never opened — that is, provided some
file hashed successfully, or the last batch is short (so the fallback is
skipped). -/
theorem c2_invariant_amended (digestHex : List Nat → String) (B : Nat)
    (events : List WalkEvent) (hB : 0 < B)
    (hprov : batchRecs digestHex (list_files_in_batches B events).batches ≠ [] ∨
      ∃ lb, (list_files_in_batches B events).batches.getLast? = some lb ∧
        lb.length < B) :
    ∀ s ∈ sinkStates digestHex B events false, sinkInv s := by
  intro s hs
  simp only [sinkStates, List.mem_append, List.mem_map, List.mem_singleton] at hs
  rcases hs with ⟨r, hr, rfl⟩ | rfl
  · exact scanl_sink_inv digestHex B _ (scan_shape B hB events) [] false 0 r hr
  · rw [mainRun_char digestHex B events hB]
    cases hlb : (list_files_in_batches B events).batches.getLast? with
    | none =>
        rcases hprov with h | ⟨lb, hlb', _⟩
        · exact absurd (by rw [getLast?_eq_none_imp hlb]; rfl) h
        · rw [hlb] at hlb'
          exact absurd hlb' (by simp)
    | some lb =>
        by_cases hlt : decide (lb.length < B) = true
        · by_cases hemp : (process_batch digestHex lb).isEmpty = true
          · simp only [expectedState, hlb, hlt, if_true, hemp, String.append_empty]
            exact midSink_sinkInv _
          · simp only [Bool.not_eq_true] at hemp
            have hpb : process_batch digestHex lb ≠ [] := by
              intro h
              rw [h] at hemp
              simp at hemp
            have hrs : batchRecs digestHex (list_files_in_batches B events).batches ≠ [] :=
              batchRecs_ne_nil_of_mem digestHex (mem_of_getLast?_eq hlb) hpb
            simp only [expectedState, hlb, hlt, if_true, hemp, Bool.false_eq_true,
              if_false]
            refine Or.inr (Or.inr
              ⟨batchRecs digestHex (list_files_in_batches B events).batches, ?_⟩)
            simp [midSink, List.isEmpty_eq_true, hrs, String.append_assoc]
        · have hlt' : decide (lb.length < B) = false := by
            simp only [Bool.not_eq_true] at hlt
            exact hlt
          have hrs : batchRecs digestHex (list_files_in_batches B events).batches ≠ [] := by
            rcases hprov with h | ⟨lb', hlb', hshort⟩
            · exact h
            · rw [hlb] at hlb'
              have heq : lb' = lb := by simpa using hlb'.symm
              rw [heq] at hshort
              rw [decide_eq_true_iff] at hlt
              exact absurd hshort hlt
          simp only [expectedState, hlb, hlt', Bool.false_eq_true, if_false]
          refine Or.inr (Or.inr
            ⟨batchRecs digestHex (list_files_in_batches B events).batches, ?_⟩)
          simp [midSink, List.isEmpty_eq_true, hrs, String.append_assoc]

/-- Witness for C2 as amended: batch size 1 and one readable file; the
intermediate sink after the only batch is the open document, the final
sink the complete one. -/
theorem c2_invariant_witness :
    sinkInv (docPreamble ++
      entriesBlock [⟨"r/a", "h"⟩]) :=
  c2_invariant_amended (fun _ => "h") 1 [WalkEvent.fileEv ⟨["r", "a"], some [1]⟩]
    (by decide)
    (Or.inl (by decide))
    (docPreamble ++ entriesBlock [⟨"r/a", "h"⟩])
    (by decide)

/-- C8 counterexample: a walk whose iterator raises a non-permission
error immediately.  The scanner logs the error and returns — the
exception does not propagate out of the generator, so `main` proceeds as
if the walk ended normally — and the orchestrator's fallback close leaves
the output file holding bare closing tokens: a final sink state that is
neither empty nor valid JSON. -/
theorem c8_fatal_counterexample :
    (list_files_in_batches 20 [WalkEvent.fatalErr]).err = some ScanErr.fatal ∧
    main (fun _ => "h") 20 [WalkEvent.fatalErr] false "" = docClose ∧
    main (fun _ => "h") 20 [WalkEvent.fatalErr] false "" ≠ "" ∧
    ¬ specValidHashDoc (main (fun _ => "h") 20 [WalkEvent.fatalErr] false "") := by
  refine ⟨by decide, rfl, by decide, ?_⟩
  rw [show main (fun _ => "h") 20 [WalkEvent.fatalErr] false "" = docClose from rfl]
  exact not_specValidHashDoc_docClose

/-- C8 as amended: a non-permission traversal failure is logged and
recorded inside the scanner and swallowed there: the walk ends with the
full batches collected before the error, no exception reaches the
orchestrator, and `main` finalizes exactly as it would for a scan that
produced those batches — which leaves the sink invalid (bare closing
tokens) whenever no record was written before the error. -/
theorem c8_fatal_amended (digestHex : List Nat → String) (B : Nat)
    (pre post : List WalkEvent) (prior : String) (hB : 0 < B)
    (hpre : errFree pre = true) :
    (list_files_in_batches B (pre ++ WalkEvent.fatalErr :: post)).err =
      some ScanErr.fatal ∧
    (list_files_in_batches B (pre ++ WalkEvent.fatalErr :: post)).batches =
      fullChunksOf B (acceptedFiles pre) ∧
    main digestHex B (pre ++ WalkEvent.fatalErr :: post) false prior =
      (expectedState digestHex B (fullChunksOf B (acceptedFiles pre))).sink := by
  have hscan : list_files_in_batches B (pre ++ WalkEvent.fatalErr :: post) =
      ⟨fullChunksOf B (acceptedFiles pre), some ScanErr.fatal⟩ := by
    rw [list_files_in_batches,
      scanLoop_err B hB pre WalkEvent.fatalErr post [] [] hpre (by simpa using hB)
        (Or.inr rfl)]
    simp
  refine ⟨by rw [hscan], by rw [hscan], ?_⟩
  rw [show main digestHex B (pre ++ WalkEvent.fatalErr :: post) false prior =
      (mainRun digestHex B (pre ++ WalkEvent.fatalErr :: post) false).sink from rfl]
  rw [mainRun_char digestHex B _ hB, hscan]

/-- Witness for C8 as amended: a fatal error with no preceding files; the
sink ends as the bare closing tokens. -/
theorem c8_fatal_witness :
    (list_files_in_batches 1 ([] ++ WalkEvent.fatalErr :: [])).err =
      some ScanErr.fatal ∧
    (list_files_in_batches 1 ([] ++ WalkEvent.fatalErr :: [])).batches =
      fullChunksOf 1 (acceptedFiles []) ∧
    main (fun _ => "h") 1 ([] ++ WalkEvent.fatalErr :: []) false "old" =
      (expectedState (fun _ => "h") 1 (fullChunksOf 1 (acceptedFiles []))).sink :=
  c8_fatal_amended (fun _ => "h") 1 [] [] "old" (by decide) (by decide)

/-! ## The walk of a readable tree yields exactly its files -/

theorem rglobAux_cons_file (fuel : Nat) (base : List String) (n : String)
    (c : Option (List Nat)) (rest : List FsEntry) :
    rglobAux (fuel + 1) base (FsEntry.file n c :: rest) = rglobAux fuel base rest := rfl

theorem rglobAux_cons_dir (fuel : Nat) (base : List String) (n : String) (r : Bool)
    (ch rest : List FsEntry) :
    rglobAux (fuel + 1) base (FsEntry.dir n r ch :: rest) =
      if r then
        ch.map (childEvent (base ++ [n])) ++ rglobAux fuel (base ++ [n]) ch ++
          rglobAux fuel base rest
      else rglobAux fuel base rest := rfl

theorem errFree_append (a b : List WalkEvent) :
    errFree (a ++ b) = (errFree a && errFree b) := by
  simp [errFree, List.all_append]

theorem errFree_childEvents (base : List String) :
    ∀ es : List FsEntry, errFree (es.map (childEvent base)) = true := by
  intro es
  induction es with
  | nil => rfl
  | cons e rest ih =>
      cases e with
      | file n c => simpa [errFree, childEvent] using ih
      | dir n r ch => simpa [errFree, childEvent] using ih

/-- The walk never emits a raised-error event: `pathlib` suppresses the
permission errors of unreadable directories and the walk continues. -/
theorem rglobAux_errFree :
    ∀ (fuel : Nat) (base : List String) (es : List FsEntry),
      errFree (rglobAux fuel base es) = true := by
  intro fuel
  induction fuel with
  | zero =>
      intro base es
      cases es <;> rfl
  | succ f ih =>
      intro base es
      cases es with
      | nil => rfl
      | cons e rest =>
          cases e with
          | file n c =>
              rw [rglobAux_cons_file]
              exact ih base rest
          | dir n r ch =>
              rw [rglobAux_cons_dir]
              by_cases hr : r
              · simp only [hr, if_true]
                rw [errFree_append, errFree_append, errFree_childEvents,
                  ih _ ch, ih base rest]
                rfl
              · have hr' : r = false := by simpa using hr
                simp only [hr', Bool.false_eq_true, if_false]
                exact ih base rest

/-- The files appearing in the walk's events are exactly the accessible
files of the tree: an unreadable subtree is skipped, everything else —
sibling subtrees of an unreadable directory included — is yielded. -/
theorem rglobAux_files :
    ∀ (fuel : Nat) (base : List String) (es : List FsEntry),
      entriesSize es ≤ fuel →
      ∀ f : FileRef,
        (f ∈ streamFiles (es.map (childEvent base)) ∨
            f ∈ streamFiles (rglobAux fuel base es)) ↔
          f ∈ accessibleFilesUnderAux fuel base es := by
  intro fuel
  induction fuel with
  | zero =>
      intro base es hsz f
      cases es with
      | nil => simp [streamFiles, accessibleFilesUnderAux, rglobAux]
      | cons e rest =>
          exfalso
          cases e <;> simp [entriesSize, entrySize] at hsz
  | succ fl ih =>
      intro base es hsz f
      cases es with
      | nil => simp [streamFiles, accessibleFilesUnderAux, rglobAux]
      | cons e rest =>
          cases e with
          | file n c =>
              rw [rglobAux_cons_file]
              have hsz' : entriesSize rest ≤ fl := by
                simp only [entriesSize, entrySize] at hsz
                omega
              have hmem := ih base rest hsz' f
              simp only [List.map_cons, childEvent, streamFiles, List.filterMap_cons,
                accessibleFilesUnderAux, List.mem_cons] at hmem ⊢
              tauto
          | dir n r ch =>
              rw [rglobAux_cons_dir]
              have hszch : entriesSize ch ≤ fl := by
                simp only [entriesSize, entrySize] at hsz
                omega
              have hszrest : entriesSize rest ≤ fl := by
                simp only [entriesSize, entrySize] at hsz
                omega
              have hch := ih (base ++ [n]) ch hszch f
              have hrest := ih base rest hszrest f
              by_cases hr : r
              · simp only [hr, if_true, List.map_cons, childEvent, streamFiles,
                  List.filterMap_cons, List.filterMap_append,
                  accessibleFilesUnderAux, List.mem_append, List.mem_cons]
                  at hch hrest ⊢
                tauto
              · have hr' : r = false := by simpa using hr
                simp only [hr', Bool.false_eq_true, if_false, List.map_cons,
                  childEvent, streamFiles, List.filterMap_cons,
                  List.filterMap_append, accessibleFilesUnderAux,
                  List.mem_append, List.mem_cons, List.nil_append]
                  at hrest ⊢
                tauto

/-- On a fully readable tree every file is accessible. -/
theorem accessibleFilesUnderAux_eq :
    ∀ (fuel : Nat) (base : List String) (es : List FsEntry),
      entriesReadable es = true →
      accessibleFilesUnderAux fuel base es = filesUnderAux fuel base es := by
  intro fuel
  induction fuel with
  | zero =>
      intro base es _
      cases es <;> rfl
  | succ fl ih =>
      intro base es hre
      cases es with
      | nil => rfl
      | cons e rest =>
          cases e with
          | file n c =>
              have h2 : entriesReadable rest = true := by
                simp only [entriesReadable, entryReadable, Bool.and_eq_true] at hre
                exact hre.2
              simp only [accessibleFilesUnderAux, filesUnderAux, ih base rest h2]
          | dir n r ch =>
              have h1 : r = true ∧ entriesReadable ch = true ∧
                  entriesReadable rest = true := by
                simp only [entriesReadable, entryReadable, Bool.and_eq_true] at hre
                exact ⟨hre.1.1, hre.1.2, hre.2⟩
              simp only [accessibleFilesUnderAux, filesUnderAux, h1.1, if_true,
                ih (base ++ [n]) ch h1.2.1, ih base rest h1.2.2]

/-- The scanner accepts exactly the walked files without an excluded path
segment. -/
theorem mem_acceptedFiles (events : List WalkEvent) (f : FileRef) :
    f ∈ acceptedFiles events ↔
      f ∈ streamFiles events ∧ excludedPath f.parts = false := by
  simp only [acceptedFiles, streamFiles, List.mem_filterMap]
  constructor
  · rintro ⟨e, he, hg⟩
    cases e with
    | fileEv f' =>
        by_cases hex : excludedPath f'.parts
        · simp [hex] at hg
        · simp only [hex, Bool.false_eq_true, if_false, Option.some.injEq] at hg
          subst hg
          exact ⟨⟨WalkEvent.fileEv f', he, rfl⟩, by simpa using hex⟩
    | dirEv parts => simp at hg
    | permErr => simp at hg
    | fatalErr => simp at hg
  · rintro ⟨⟨e, he, hg⟩, hex⟩
    cases e with
    | fileEv f' =>
        simp only [Option.some.injEq] at hg
        subst hg
        exact ⟨WalkEvent.fileEv f', he, by simp [hex]⟩
    | dirEv parts => simp at hg
    | permErr => simp at hg
    | fatalErr => simp at hg

/-- Pointwise reading of `recordOf` when the digest never returns the
empty string. -/
theorem recordOf_some_iff (digestHex : List Nat → String)
    (hdh : ∀ c, digestHex c ≠ "") (f : FileRef) (p : String) :
    (∃ r, recordOf digestHex f = some r ∧ r.file_path = p) ↔
      (∃ h, compute_file_hash digestHex f.contents = some h) ∧ pathStr f = p := by
  cases hfc : f.contents with
  | none =>
      simp [recordOf, compute_file_hash, hfc]
  | some c =>
      have hne : (digestHex c).isEmpty = false := by
        rcases hi : (digestHex c).isEmpty with _ | _
        · rfl
        · exact absurd ((String.isEmpty_iff (digestHex c)).mp hi) (hdh c)
      simp [recordOf, hfc, compute_file_hash_some, hne]

/-- C4 counterexample: a tree whose root holds the unreadable directory
`x` (containing `root/x/hidden`) and the readable sibling directory `y`
containing the accessible, non-excluded file `root/y/b.txt`.  Scanning
`x` raises `PermissionError`, but `pathlib` catches it inside `rglob` and
continues: the subtree of `x` is skipped, the sibling file is yielded and
batched, and the walk is not terminated.  Because the error never reaches
the scanner's `except PermissionError` handler, nothing is logged — the
scanner's error record stays `none`, refuting the claim's conjunct that
the scanner logs the error (the remaining conjuncts hold). -/
theorem c4_permission_counterexample :
    (list_files_in_batches 20 (rglobStream ["root"]
        [FsEntry.dir "x" false [FsEntry.file "hidden" (some [0])],
          FsEntry.dir "y" true [FsEntry.file "b.txt" (some [1])]])).err = none ∧
    (⟨["root", "y", "b.txt"], some [1]⟩ : FileRef) ∈
      (list_files_in_batches 20 (rglobStream ["root"]
        [FsEntry.dir "x" false [FsEntry.file "hidden" (some [0])],
          FsEntry.dir "y" true [FsEntry.file "b.txt" (some [1])]])).batches.flatten ∧
    (⟨["root", "x", "hidden"], some [0]⟩ : FileRef) ∉
      (list_files_in_batches 20 (rglobStream ["root"]
        [FsEntry.dir "x" false [FsEntry.file "hidden" (some [0])],
          FsEntry.dir "y" true [FsEntry.file "b.txt" (some [1])]])).batches.flatten := by
  refine ⟨by decide, by decide, by decide⟩

/-- C4 as amended: a permission failure on a subtree is swallowed inside
the traversal primitive, so the scanner records and logs nothing (its
permission handler never fires); the walk skips only the unreadable
subtree and continues, the batches collectively hold exactly the
accessible, non-excluded regular files — accessible sibling-subtree files
included — and a permission failure never terminates the sequence of
batches early. -/
theorem c4_permission_amended (B : Nat) (rootParts : List String)
    (entries : List FsEntry) (hB : 0 < B) :
    (list_files_in_batches B (rglobStream rootParts entries)).err = none ∧
    ∀ f : FileRef,
      f ∈ (list_files_in_batches B (rglobStream rootParts entries)).batches.flatten ↔
        f ∈ accessibleFilesUnder rootParts entries ∧
          excludedPath f.parts = false := by
  have herr : errFree (rglobStream rootParts entries) = true := by
    rw [rglobStream, errFree_append, errFree_childEvents, rglobAux_errFree]
    rfl
  have hscan : list_files_in_batches B (rglobStream rootParts entries) =
      ⟨chunksOf B (acceptedFiles (rglobStream rootParts entries)), none⟩ := by
    rw [list_files_in_batches,
      scanLoop_clean B hB _ [] [] herr (by simpa using hB)]
    simp
  refine ⟨by rw [hscan], ?_⟩
  intro f
  rw [hscan]
  show f ∈ (chunksOf B (acceptedFiles (rglobStream rootParts entries))).flatten ↔ _
  rw [chunksOf_join B hB, mem_acceptedFiles]
  have hwalk := rglobAux_files (entriesSize entries) rootParts entries
    (Nat.le_refl _) f
  constructor
  · rintro ⟨hstream, hex⟩
    refine ⟨?_, hex⟩
    rw [accessibleFilesUnder]
    refine hwalk.mp ?_
    rw [rglobStream, streamFiles, List.filterMap_append] at hstream
    rcases List.mem_append.mp hstream with h | h
    · exact Or.inl h
    · exact Or.inr h
  · rintro ⟨hacc, hex⟩
    refine ⟨?_, hex⟩
    rw [accessibleFilesUnder] at hacc
    rw [rglobStream, streamFiles, List.filterMap_append]
    rcases hwalk.mpr hacc with h | h
    · exact List.mem_append.mpr (Or.inl h)
    · exact List.mem_append.mpr (Or.inr h)

/-- Witness for C4 as amended, at the tree with an unreadable directory
and an accessible sibling-subtree file. -/
theorem c4_permission_witness :
    (list_files_in_batches 20 (rglobStream ["root"]
        [FsEntry.dir "x" false [FsEntry.file "hidden" (some [0])],
          FsEntry.dir "y" true [FsEntry.file "b.txt" (some [1])]])).err = none ∧
    ((⟨["root", "y", "b.txt"], some [1]⟩ : FileRef) ∈
        (list_files_in_batches 20 (rglobStream ["root"]
          [FsEntry.dir "x" false [FsEntry.file "hidden" (some [0])],
            FsEntry.dir "y" true [FsEntry.file "b.txt" (some [1])]])).batches.flatten ↔
      (⟨["root", "y", "b.txt"], some [1]⟩ : FileRef) ∈
          accessibleFilesUnder ["root"]
            [FsEntry.dir "x" false [FsEntry.file "hidden" (some [0])],
              FsEntry.dir "y" true [FsEntry.file "b.txt" (some [1])]] ∧
        excludedPath ["root", "y", "b.txt"] = false) :=
  ⟨(c4_permission_amended 20 ["root"]
      [FsEntry.dir "x" false [FsEntry.file "hidden" (some [0])],
        FsEntry.dir "y" true [FsEntry.file "b.txt" (some [1])]] (by decide)).1,
    (c4_permission_amended 20 ["root"]
      [FsEntry.dir "x" false [FsEntry.file "hidden" (some [0])],
        FsEntry.dir "y" true [FsEntry.file "b.txt" (some [1])]] (by decide)).2
      ⟨["root", "y", "b.txt"], some [1]⟩⟩

/-- C6: for every directory snapshot whose walk completes, the set of
`file_path` values that reach the writer equals the set of regular files
under the root, minus every file with an excluded path segment at any
depth, minus every file whose hash fails. -/
theorem c6_completeness (digestHex : List Nat → String) (B : Nat)
    (rootParts : List String) (entries : List FsEntry) (p : String) (hB : 0 < B)
    (hdh : ∀ c, digestHex c ≠ "") (hok : walkOk rootParts entries = true) :
    p ∈ (batchRecs digestHex
        (list_files_in_batches B (rglobStream rootParts entries)).batches).map
        Record.file_path ↔
      ∃ f ∈ filesUnder rootParts entries,
        excludedPath f.parts = false ∧
        (∃ h, compute_file_hash digestHex f.contents = some h) ∧
        pathStr f = p := by
  have herr : errFree (rglobStream rootParts entries) = true := by
    rw [rglobStream, errFree_append, errFree_childEvents, rglobAux_errFree]
    rfl
  have hscan : list_files_in_batches B (rglobStream rootParts entries) =
      ⟨chunksOf B (acceptedFiles (rglobStream rootParts entries)), none⟩ := by
    rw [list_files_in_batches,
      scanLoop_clean B hB _ [] [] herr (by simpa using hB)]
    simp
  have hrecs : batchRecs digestHex
      (list_files_in_batches B (rglobStream rootParts entries)).batches =
      (acceptedFiles (rglobStream rootParts entries)).filterMap
        (recordOf digestHex) := by
    rw [hscan, batchRecs_eq_filterMap, chunksOf_join B hB]
  rw [hrecs]
  have hwalk := rglobAux_files (entriesSize entries) rootParts entries
    (Nat.le_refl _)
  have hacc_eq : accessibleFilesUnderAux (entriesSize entries) rootParts entries =
      filesUnderAux (entriesSize entries) rootParts entries :=
    accessibleFilesUnderAux_eq (entriesSize entries) rootParts entries hok
  simp only [List.mem_map, List.mem_filterMap]
  constructor
  · rintro ⟨r, ⟨f, hf, hrec⟩, hp⟩
    have hpt := (recordOf_some_iff digestHex hdh f p).mp ⟨r, hrec, hp⟩
    have hacc := (mem_acceptedFiles _ f).mp hf
    have hfu : f ∈ filesUnder rootParts entries := by
      rw [filesUnder, ← hacc_eq]
      refine (hwalk f).mp ?_
      have := hacc.1
      rw [rglobStream, streamFiles, List.filterMap_append] at this
      rcases List.mem_append.mp this with h | h
      · exact Or.inl h
      · exact Or.inr h
    exact ⟨f, hfu, hacc.2, hpt.1, hpt.2⟩
  · rintro ⟨f, hfu, hex, hhash, hp⟩
    obtain ⟨r, hrec, hrp⟩ := (recordOf_some_iff digestHex hdh f p).mpr ⟨hhash, hp⟩
    have hfstream : f ∈ streamFiles (rglobStream rootParts entries) := by
      rw [filesUnder, ← hacc_eq] at hfu
      have := (hwalk f).mpr hfu
      rw [rglobStream, streamFiles, List.filterMap_append]
      rcases this with h | h
      · exact List.mem_append.mpr (Or.inl h)
      · exact List.mem_append.mpr (Or.inr h)
    exact ⟨r, ⟨f, (mem_acceptedFiles _ f).mpr ⟨hfstream, hex⟩, hrec⟩, hrp⟩

/-- Witness for C6: a root with a readable file `r/a`, a file under the
excluded directory name, and an unreadable file; only `r/a` is written. -/
theorem c6_completeness_witness :
    "r/a" ∈ (batchRecs (fun _ => "h")
        (list_files_in_batches 20 (rglobStream ["r"]
          [FsEntry.file "a" (some [1]),
            FsEntry.dir "$RECYCLE.BIN" true [FsEntry.file "x" (some [2])],
            FsEntry.file "bad" none])).batches).map Record.file_path ↔
      ∃ f ∈ filesUnder ["r"]
          [FsEntry.file "a" (some [1]),
            FsEntry.dir "$RECYCLE.BIN" true [FsEntry.file "x" (some [2])],
            FsEntry.file "bad" none],
        excludedPath f.parts = false ∧
        (∃ h, compute_file_hash (fun _ => "h") f.contents = some h) ∧
        pathStr f = "r/a" :=
  c6_completeness (fun _ => "h") 20 ["r"]
    [FsEntry.file "a" (some [1]),
      FsEntry.dir "$RECYCLE.BIN" true [FsEntry.file "x" (some [2])],
      FsEntry.file "bad" none] "r/a"
    (by decide) (by intro c; show "h" ≠ ""; decide) (by decide)

end FileHashing
